import Mathlib

/-!
Shallow embedding of the kindle-daily-digest pipeline core
(packages/core/src: interests, email, llm; apps/cron), used to verify the
natural-language specification against the code.

Conventions of the embedding:
* JavaScript numbers are modelled by `ℚ` (exact arithmetic); timestamps are
  rational milliseconds since the epoch.
* JavaScript strings are modelled by Lean `String` / `List Char`, restricted
  to ASCII text; `toLowerCase` is modelled by the ASCII lowering `toLowerCh`.
* `null`/`undefined` valued fields become `Option`.
* JavaScript objects used as ordered key/value collections (`Object.entries`,
  `Map`) become association lists in insertion order; `Map.set` overwrites in
  place, modelled by `mapSet`.
* `Array.prototype.sort` (stable since ES2019) with comparator `c` is
  modelled by the stable `List.mergeSort` with `le a b := c a b ≤ 0`.
-/

namespace KindleDigest

/-- ASCII lower-casing of a character; models the effect of JavaScript
`toLowerCase` on ASCII strings. -/
def toLowerCh (c : Char) : Char :=
  if 65 ≤ c.toNat ∧ c.toNat ≤ 90 then Char.ofNat (c.toNat + 32) else c

/-- Lowercase ASCII letter test. -/
def isLowerAlpha (c : Char) : Bool := 97 ≤ c.toNat && c.toNat ≤ 122

/-- Uppercase ASCII letter test. -/
def isUpperAlpha (c : Char) : Bool := 65 ≤ c.toNat && c.toNat ≤ 90

/-- ASCII digit test. -/
def isDigitCh (c : Char) : Bool := 48 ≤ c.toNat && c.toNat ≤ 57

/-- Characters matched by the JavaScript regex class backslash-s
(whitespace), restricted to ASCII. -/
def isJsSpace (c : Char) : Bool :=
  c = ' ' || c = '\t' || c = '\n' || c = '\r' || c = '\x0b' || c = '\x0c'

/-- Word characters for JavaScript regex word boundaries: [A-Za-z0-9_]. -/
def isWordCh (c : Char) : Bool :=
  isLowerAlpha c || isUpperAlpha c || isDigitCh c || c = '_'

/-- Word-character test lifted to an optional character (out-of-range
positions count as non-word, as at the ends of the subject string). -/
def isWordOpt : Option Char → Bool
  | none => false
  | some c => isWordCh c

/-- Association-list read, returning the first value bound to the key. -/
def mapGet {κ β : Type} [DecidableEq κ] : List (κ × β) → κ → Option β
  | [], _ => none
  | (k, v) :: rest, key => if k = key then some v else mapGet rest key

/-- JavaScript `Map.set`: overwrite the value in place if the key is
present, otherwise append the binding at the end. -/
def mapSet {κ β : Type} [DecidableEq κ] (m : List (κ × β)) (k : κ) (v : β) :
    List (κ × β) :=
  if m.any (fun kv => kv.1 = k) then
    m.map (fun kv => if kv.1 = k then (k, v) else kv)
  else
    m ++ [(k, v)]

/-! ### Interests module (packages/core/src/interests/index.ts) -/

/-- One interest topic: keyword list plus optional topic-specific feeds
(interface InterestTopic). -/
structure InterestTopic where
  keywords : List String
  feeds : Option (List String)
deriving DecidableEq, Repr

/-- The interest configuration: topic name to topic, in insertion order
(type DigestInterests, a string-keyed record). -/
abbrev DigestInterests := List (String × InterestTopic)

/-- A raw RSS item (interface FeedItem in rss/index.ts). `pubDate` is
milliseconds since the epoch, `none` when the feed gave no date. -/
structure FeedItem where
  title : String
  link : String
  pubDate : Option ℚ
  content : String
  contentSnippet : String
  author : Option String
  feedTitle : String
  feedUrl : String
deriving DecidableEq, Repr

/-- A scored feed item (interface ScoredFeedItem). -/
structure ScoredFeedItem where
  title : String
  link : String
  pubDate : Option ℚ
  content : String
  contentSnippet : String
  author : Option String
  feedTitle : String
  feedUrl : String
  score : ℚ
  matchedTopics : List String
  matchedKeywords : List String
  recencyScore : ℚ
deriving DecidableEq, Repr

/-- calculateRecencyScore: 100 for items at most 6 hours old, 0 from 72
hours on, linear decay in between, 0 for missing dates. `now` is the
current time in milliseconds (the source reads Date.now()). -/
def calculateRecencyScore (now : ℚ) (pubDate : Option ℚ) : ℚ :=
  match pubDate with
  | none => 0
  | some t =>
    let ageHours : ℚ := (now - t) / (1000 * 60 * 60)
    if ageHours ≤ 6 then 100
    else if 72 ≤ ageHours then 0
    else max 0 (100 - (ageHours - 6) * (100 / 66))

/-- normalizeText: lower-case, then replace every character outside
[a-z0-9, whitespace, hyphen] with a space (on the char list). -/
def normalizeChars (s : List Char) : List Char :=
  (s.map toLowerCh).map fun c =>
    if isLowerAlpha c || isDigitCh c || isJsSpace c || c = '-' then c else ' '

/-- Does `p` occur as a leading segment of `l`? (List.isPrefixOf, spelled
out so concrete runs reduce easily.) -/
def leadsWith : List Char → List Char → Bool
  | [], _ => true
  | _ :: _, [] => false
  | p :: ps, c :: cs => p = c && leadsWith ps cs

/-- Word-boundary check for a candidate match of `kw` starting after
`prev`: a regex backslash-b holds at the match start iff the word-ness of
the previous character differs from that of the keyword head. -/
def boundaryBefore (kw : List Char) (prev : Option Char) : Bool :=
  isWordOpt prev ≠ isWordOpt kw.head?

/-- Word-boundary check at the match end: backslash-b after the keyword
holds iff the word-ness of the last keyword character differs from that of
the following text character. -/
def boundaryAfter (kw rest : List Char) : Bool :=
  isWordOpt kw.getLast? ≠ isWordOpt rest.head?

/-- Does the (non-empty) keyword match at the current position, with word
boundaries on both sides? `text` is the remaining subject, `prev` the
character just before the current position. -/
def matchesHere (kw text : List Char) (prev : Option Char) : Bool :=
  leadsWith kw text && boundaryBefore kw prev && boundaryAfter kw (text.drop kw.length)

/-- Left-to-right scan counting non-overlapping matches of the non-empty
literal keyword with word boundaries, as the global regex match does.
`skip` is the number of positions still covered by the previous match. -/
def scanCount (kw : List Char) : List Char → Option Char → Nat → Nat
  | [], _, _ => 0
  | c :: rest, _, skip + 1 => scanCount kw rest (some c) skip
  | c :: rest, prev, 0 =>
    if matchesHere kw (c :: rest) prev then
      1 + scanCount kw rest (some c) (kw.length - 1)
    else
      scanCount kw rest (some c) 0

/-- Number of word-boundary positions of the subject (what the global
regex backslash-b-backslash-b matches when the keyword is empty). -/
def countBoundaries : Option Char → List Char → Nat
  | prev, [] => if isWordOpt prev then 1 else 0
  | prev, c :: cs =>
    (if isWordOpt prev ≠ isWordCh c then 1 else 0) + countBoundaries (some c) cs

/-- Number of matches of `new RegExp(backslash-b + kw + backslash-b, "gi")`
against `text`, for an already-normalized literal keyword. -/
def countMatches (kw text : List Char) : Nat :=
  match kw with
  | [] => countBoundaries none text
  | _ :: _ => scanCount kw text none 0

/-- scoreKeyword: normalize both strings, count word-boundary-anchored
occurrences, return min 10 (2 * occurrences). -/
def scoreKeyword (keyword text : String) : Nat :=
  min 10 (2 * countMatches (normalizeChars keyword.data) (normalizeChars text.data))

/-- The search blob of scoreFeedItem: title, snippet and content joined by
single spaces, with empty (falsy) parts filtered out. -/
def textToSearch (item : FeedItem) : String :=
  String.intercalate " "
    (([item.title, item.contentSnippet, item.content]).filter (fun s => s ≠ ""))

/-- Keyword-loop state of scoreFeedItem: per-topic score accumulated so
far and the deduplicated matched-keyword list. -/
def scoreTopicStep (text : String) (acc : Nat × List String) (kw : String) :
    Nat × List String :=
  let ks := scoreKeyword kw text
  if 0 < ks then
    (acc.1 + ks, if kw ∈ acc.2 then acc.2 else acc.2 ++ [kw])
  else acc

/-- The inner keyword loop of scoreFeedItem over one topic. -/
def scoreTopic (text : String) (kws : List String) (mk : List String) :
    Nat × List String :=
  kws.foldl (scoreTopicStep text) (0, mk)

/-- The per-topic score alone (sum of positive keyword scores). -/
def topicScoreOf (text : String) (topic : InterestTopic) : Nat :=
  (scoreTopic text topic.keywords []).1

/-- The topic loop of scoreFeedItem: accumulates total score, matched
topic names, and matched keywords over the interest entries in order. -/
def scoreTopicsLoop (text : String) :
    DigestInterests → Nat × List String × List String → Nat × List String × List String
  | [], acc => acc
  | (topicName, topic) :: rest, (total, topics, mkws) =>
    let r := scoreTopic text topic.keywords mkws
    if 0 < r.1 then
      scoreTopicsLoop text rest (total + r.1, topics ++ [topicName], r.2)
    else
      scoreTopicsLoop text rest (total, topics, r.2)

/-- scoreFeedItem: keyword score over all topics plus a 20% recency
contribution; returns the item with score metadata attached. -/
def scoreFeedItem (now : ℚ) (item : FeedItem) (interests : DigestInterests) :
    ScoredFeedItem :=
  let r := scoreTopicsLoop (textToSearch item) interests (0, [], [])
  let recencyScore := calculateRecencyScore now item.pubDate
  { title := item.title
    link := item.link
    pubDate := item.pubDate
    content := item.content
    contentSnippet := item.contentSnippet
    author := item.author
    feedTitle := item.feedTitle
    feedUrl := item.feedUrl
    score := (r.1 : ℚ) + recencyScore * (1 / 5)
    matchedTopics := r.2.1
    matchedKeywords := r.2.2
    recencyScore := recencyScore }

/-- Comparator-as-Boolean-order of the score-descending sort
((a, b) => b.score - a.score). -/
def scoreDescLe (a b : ScoredFeedItem) : Bool := b.score ≤ a.score

/-- scoreAndRankFeedItems: score every item, drop zero-topic items, sort
by score descending (stable). -/
def scoreAndRankFeedItems (now : ℚ) (items : List FeedItem)
    (interests : DigestInterests) : List ScoredFeedItem :=
  ((items.map (fun i => scoreFeedItem now i interests)).filter
    (fun i => i.matchedTopics ≠ [])).mergeSort scoreDescLe

/-- Count read from the per-topic tally; a missing key reads as 0. The key
is the optional primary topic (an item without topics indexes the record
by the single "undefined" key, modelled by `none`). -/
def countOf (counts : List (Option String × Nat)) (k : Option String) : Nat :=
  (mapGet counts k).getD 0

/-- Pass 1 of selectDiverseItems: admit an item while its primary topic is
below the per-topic cap; stop once maxItems are selected. -/
def diversityPass (maxItems maxPerTopic : Nat) :
    List ScoredFeedItem → List ScoredFeedItem → List (Option String × Nat) →
    List ScoredFeedItem
  | [], sel, _ => sel
  | item :: rest, sel, counts =>
    if maxItems ≤ sel.length then sel
    else
      let primaryTopic := item.matchedTopics.head?
      let currentCount := countOf counts primaryTopic
      if currentCount < maxPerTopic then
        diversityPass maxItems maxPerTopic rest (sel ++ [item])
          (mapSet counts primaryTopic (currentCount + 1))
      else
        diversityPass maxItems maxPerTopic rest sel counts

/-- Pass 2 of selectDiverseItems: fill remaining slots with any
not-yet-selected item, ignoring topic caps. -/
def fillPass (maxItems : Nat) :
    List ScoredFeedItem → List ScoredFeedItem → List ScoredFeedItem
  | [], sel => sel
  | item :: rest, sel =>
    if maxItems ≤ sel.length then sel
    else if item ∈ sel then fillPass maxItems rest sel
    else fillPass maxItems rest (sel ++ [item])

/-- selectDiverseItems: diversity pass, then (only if under-filled) the
fill pass over the same list. -/
def selectDiverseItems (scoredItems : List ScoredFeedItem) (maxItems : Nat)
    (maxPerTopic : Nat) : List ScoredFeedItem :=
  let selected := diversityPass maxItems maxPerTopic scoredItems [] []
  if selected.length < maxItems then fillPass maxItems scoredItems selected
  else selected

/-! ### LLM module (packages/core/src/llm): tiers, fallback ranking,
fallback summaries -/

/-- Importance tier (type ArticleTier). -/
inductive Tier where
  | critical
  | notable
  | related
deriving DecidableEq, Repr

/-- A rankable unit (interface ArticleForRanking in llm/types.ts). -/
structure ArticleForRanking where
  id : String
  title : String
  source : String
  pubDate : Option ℚ
  excerpt : String
  contentSnippet : String
  url : String
  isManualSave : Bool
  matchedTopics : Option (List String)
deriving DecidableEq, Repr

/-- Matched-topic count as read by the fallback comparator
((x.matchedTopics?.length || 0)). -/
def topicCount (a : ArticleForRanking) : Nat := (a.matchedTopics.getD []).length

/-- Boolean order of the fallback-ranking comparator: manual saves first,
then matched-topic count descending. `fallbackLe a b` iff the source
comparator returns a non-positive number on (a, b). -/
def fallbackLe (a b : ArticleForRanking) : Bool :=
  if a.isManualSave ≠ b.isManualSave then a.isManualSave
  else topicCount b ≤ topicCount a

/-- The sorted copy built by applyFallbackRanking
([...articles].sort(comparator), a stable sort). -/
def fallbackSorted (articles : List ArticleForRanking) : List ArticleForRanking :=
  articles.mergeSort fallbackLe

/-- Number of critical slots: max(1, floor(n * 0.2)). For every list
length that can arise, the floating-point floor(n * 0.2) equals n / 5 in
exact arithmetic (the product rounds to at most n * 2e-17 away from n / 5,
never across an integer for n below 2^50). -/
def criticalCount (n : Nat) : Nat := max 1 (n / 5)

/-- Number of notable slots: max(2, floor(n * 0.3)), with the same exact
reading of the floating-point product as `criticalCount`. -/
def notableCount (n : Nat) : Nat := max 2 (n * 3 / 10)

/-- Tier of the article at position `index` of the sorted list. -/
def tierForIndex (n index : Nat) : Tier :=
  if index < criticalCount n then Tier.critical
  else if index < criticalCount n + notableCount n then Tier.notable
  else Tier.related

/-- applyFallbackRanking: sort by (manual save desc, topic count desc),
assign critical / notable / related by position, build the id-keyed result
map (a JavaScript Map, here an association list written via mapSet). -/
def applyFallbackRanking (articles : List ArticleForRanking) :
    List (String × Tier × String) :=
  if articles.isEmpty then []
  else
    (fallbackSorted articles).enum.foldl
      (fun m ia =>
        mapSet m ia.2.id (tierForIndex articles.length ia.1, "Keyword-based fallback ranking"))
      []

/-- A summarization result (interface SummaryResponse). -/
structure SummaryResponse where
  summary : String
  oneLiner : Option String
deriving DecidableEq, Repr

/-- String of the first `n` characters (String.prototype.slice(0, n) for
n ≥ 0). -/
def strTake (n : Nat) (s : String) : String := ⟨s.data.take n⟩

/-- The fallback summary body built by generateFallbackSummaries for one
article: excerpt truncated to 400 characters for critical tier, 150
otherwise, with the three-dot ellipsis marker appended. -/
def fallbackSummaryText (excerpt : String) (tier : Tier) : String :=
  strTake (if tier = Tier.critical then 400 else 150) excerpt ++ "..."

/-- generateFallbackSummaries: id-keyed map of excerpt-derived summaries;
the one-liner is the article title. -/
def generateFallbackSummaries (articles : List (ArticleForRanking × Tier)) :
    List (String × SummaryResponse) :=
  articles.foldl
    (fun m at_ =>
      mapSet m at_.1.id
        { summary := fallbackSummaryText at_.1.excerpt at_.2
          oneLiner := some at_.1.title })
    []

/-! ### URL canonicalizer (packages/core/src/email/index.ts,
canonicalizeUrl)

The source parses with the WHATWG URL class. The class is a platform
collaborator, so parsing and re-serialization are modelled here for the
fragment of URL syntax the repository relies on: `http`/`https` scheme,
a plain ASCII host, an origin-form path of unreserved characters, and an
optional query of `key=value` pairs of unreserved characters (no user
info, port, percent-escapes or fragment; such inputs fall into the
fail-open branch of the model, which returns them unchanged). Within the
fragment the model mirrors the class: the host is ASCII-lowercased at
parse time, an empty string assigned to `hostname` is ignored for special
schemes, deleting a search parameter removes every pair with that name and
drops the `?` when the list empties. -/

/-- Characters the model accepts in a (lowercased) host. -/
def hostChar (c : Char) : Bool := isLowerAlpha c || isDigitCh c || c = '.' || c = '-'

/-- Characters the model accepts in a path (never '?' or '#'). -/
def pathChar (c : Char) : Bool :=
  isLowerAlpha c || isUpperAlpha c || isDigitCh c ||
    c = '/' || c = '-' || c = '.' || c = '_' || c = '~'

/-- Characters the model accepts in query keys and values (never '&', '='
or '#'). -/
def queryChar (c : Char) : Bool :=
  isLowerAlpha c || isUpperAlpha c || isDigitCh c ||
    c = '-' || c = '.' || c = '_' || c = '~'

/-- Parsed URL record of the model: scheme, lowercased host, path
(always beginning with '/'), and the search-parameter list. -/
structure UrlRec where
  scheme : List Char
  host : List Char
  path : List Char
  query : List (List Char × List Char)
deriving DecidableEq, Repr

/-- Strip a literal leading segment, returning the remainder. -/
def dropLead : List Char → List Char → Option (List Char)
  | [], l => some l
  | _ :: _, [] => none
  | p :: ps, c :: cs => if p = c then dropLead ps cs else none

/-- Split on every occurrence of the separator character (the pieces keep
their order; n separators yield n+1 pieces). -/
def splitOnCh (sep : Char) : List Char → List (List Char)
  | [] => [[]]
  | c :: cs =>
    match splitOnCh sep cs with
    | [] => [[]]
    | p :: ps => if c = sep then [] :: p :: ps else (c :: p) :: ps

/-- Parse one `key=value` search parameter of unreserved characters. -/
def parsePair (part : List Char) : Option (List Char × List Char) :=
  match splitOnCh '=' part with
  | [k, v] =>
    if k ≠ [] && k.all queryChar && v.all queryChar then some (k, v) else none
  | _ => none

/-- Parse a list of `key=value` parts, failing if any part fails. -/
def parsePairs : List (List Char) → Option (List (List Char × List Char))
  | [] => some []
  | part :: rest =>
    match parsePair part, parsePairs rest with
    | some kv, some kvs => some (kv :: kvs)
    | _, _ => none

/-- Parse the text after a '?' into the search-parameter list. -/
def parseQueryPairs (q : List Char) : Option (List (List Char × List Char)) :=
  parsePairs (splitOnCh '&' q)

/-- Parse the path-and-query tail that follows the host. -/
def parsePathQuery (scheme host after : List Char) : Option UrlRec :=
  match after with
  | [] => some ⟨scheme, host, ['/'], []⟩
  | c :: tl =>
    if c = '?' then
      (parseQueryPairs tl).map fun ps => ⟨scheme, host, ['/'], ps⟩
    else if c = '/' then
      if ¬ ((c :: tl).takeWhile fun x => x ≠ '?').all pathChar then none
      else
        match (c :: tl).drop ((c :: tl).takeWhile fun x => x ≠ '?').length with
        | [] => some ⟨scheme, host, (c :: tl).takeWhile fun x => x ≠ '?', []⟩
        | c2 :: q =>
          if c2 = '?' then
            (parseQueryPairs q).map fun ps =>
              ⟨scheme, host, (c :: tl).takeWhile fun x => x ≠ '?', ps⟩
          else none
    else none

/-- Parse host, path and query once the scheme has been removed. -/
def parseRest (scheme rest : List Char) : Option UrlRec :=
  let hostRaw := rest.takeWhile fun c => ¬(c = '/' ∨ c = '?')
  let afterHost := rest.drop hostRaw.length
  let host := hostRaw.map toLowerCh
  if host = [] ∨ ¬ host.all hostChar then none
  else parsePathQuery scheme host afterHost

/-- Parse of the model fragment (`new URL(url)` restricted as described
above); `none` models the constructor throwing or leaving the fragment. -/
def parseUrl (s : List Char) : Option UrlRec :=
  match dropLead ("http://".data) s with
  | some rest => parseRest ("http".data) rest
  | none =>
    match dropLead ("https://".data) s with
    | some rest => parseRest ("https".data) rest
    | none => none

/-- Serialize the search-parameter list (without the leading '?'):
`key=value` pairs joined by '&'. -/
def serializeQuery : List (List Char × List Char) → List Char
  | [] => []
  | [kv] => kv.1 ++ '=' :: kv.2
  | kv :: rest => kv.1 ++ '=' :: kv.2 ++ '&' :: serializeQuery rest

/-- Re-serialize a parsed record (`parsed.toString()`): no '?' is emitted
when the parameter list is empty. -/
def serializeUrl (r : UrlRec) : List Char :=
  r.scheme ++ ("://".data) ++ r.host ++ r.path ++
    (if r.query.isEmpty then [] else '?' :: serializeQuery r.query)

/-- The fixed tracking-parameter names removed by canonicalizeUrl. -/
def trackingParams : List (List Char) :=
  ["utm_source".data, "utm_medium".data, "utm_campaign".data, "utm_term".data,
   "utm_content".data, "ref".data, "source".data, "fbclid".data, "gclid".data,
   "mc_cid".data, "mc_eid".data]

/-- The hostname update of canonicalizeUrl: strip one leading `www.`
label (the assignment of an empty hostname is ignored for special
schemes, as the class setter does). -/
def stripWww (h : List Char) : List Char :=
  if leadsWith ("www.".data) h then
    let h2 := h.drop 4
    if h2 = [] then h else h2
  else h

/-- The pathname update of canonicalizeUrl: remove one trailing slash
unless the path is just the root '/'. -/
def stripSlash (p : List Char) : List Char :=
  if p.getLast? = some '/' ∧ 1 < p.length then p.dropLast else p

/-- The record-level effect of canonicalizeUrl's mutations: delete the
tracking parameters, force the https scheme, strip one trailing slash,
strip one `www.` label, lowercase the host. -/
def canonRec (r : UrlRec) : UrlRec :=
  { scheme := "https".data
    host := (stripWww r.host).map toLowerCh
    path := stripSlash r.path
    query := r.query.filter fun kv => ¬ kv.1 ∈ trackingParams }

/-- canonicalizeUrl: parse, canonicalize, re-serialize; on parse failure
return the input unchanged (fail open). -/
def canonicalizeUrl (url : String) : String :=
  match parseUrl url.data with
  | none => url
  | some r => ⟨serializeUrl (canonRec r)⟩

/-- Stability condition of the amended idempotence claim: on a parsed
input, one `www.`-strip and one trailing-slash-strip are already stable
(stripping once more changes nothing). Inputs that fail to parse satisfy
it vacuously. -/
def canonStable (url : String) : Bool :=
  match parseUrl url.data with
  | none => true
  | some r =>
    decide (stripWww (stripWww r.host) = stripWww r.host) &&
      decide (stripSlash (stripSlash r.path) = stripSlash r.path)

/-! ### Content fingerprinter (packages/core/src/email/index.ts,
computeContentHash)

The digest itself comes from the platform crypto module; it is modelled by
the SHA-256 function of FIPS 180-4 over the byte sequence of the
(ASCII-modelled) normalized text, written on natural numbers with explicit
reduction modulo 2^32. -/

/-- Helper of `collapseWs`: `prevSpace` records whether the previous
character belonged to a whitespace run already emitted as one space. -/
def collapseWsAux : Bool → List Char → List Char
  | _, [] => []
  | prevSpace, c :: cs =>
    if isJsSpace c then
      if prevSpace then collapseWsAux true cs
      else ' ' :: collapseWsAux true cs
    else c :: collapseWsAux false cs

/-- Collapse every run of whitespace to a single space
(replace(backslash-s+, ' ') with the global flag). -/
def collapseWs (s : List Char) : List Char :=
  collapseWsAux false s

/-- JavaScript String.prototype.trim on the char list. -/
def trimChars (s : List Char) : List Char :=
  ((s.dropWhile isJsSpace).reverse.dropWhile isJsSpace).reverse

/-- The normalization of computeContentHash: lower-case, collapse
whitespace runs, trim, keep the first 5000 characters. -/
def normalizeContent (s : List Char) : List Char :=
  (trimChars (collapseWs (s.map toLowerCh))).take 5000

/-- 32-bit truncation. -/
def m32 (n : Nat) : Nat := n % 2 ^ 32

/-- 32-bit addition. -/
def add32 (a b : Nat) : Nat := m32 (a + b)

/-- Right rotation of a 32-bit word by `k` positions. -/
def rotr (k n : Nat) : Nat := m32 (n / 2 ^ k + n % 2 ^ k * 2 ^ (32 - k))

/-- Right shift of a 32-bit word. -/
def shr (k n : Nat) : Nat := n / 2 ^ k

/-- Bitwise choice: (x AND y) XOR (NOT x AND z). -/
def ch (x y z : Nat) : Nat := Nat.xor (Nat.land x y) (Nat.land (2 ^ 32 - 1 - x) z)

/-- Bitwise majority: (x AND y) XOR (x AND z) XOR (y AND z). -/
def maj (x y z : Nat) : Nat :=
  Nat.xor (Nat.xor (Nat.land x y) (Nat.land x z)) (Nat.land y z)

/-- Big sigma-0 of FIPS 180-4. -/
def bsig0 (x : Nat) : Nat := Nat.xor (Nat.xor (rotr 2 x) (rotr 13 x)) (rotr 22 x)

/-- Big sigma-1 of FIPS 180-4. -/
def bsig1 (x : Nat) : Nat := Nat.xor (Nat.xor (rotr 6 x) (rotr 11 x)) (rotr 25 x)

/-- Small sigma-0 of FIPS 180-4. -/
def ssig0 (x : Nat) : Nat := Nat.xor (Nat.xor (rotr 7 x) (rotr 18 x)) (shr 3 x)

/-- Small sigma-1 of FIPS 180-4. -/
def ssig1 (x : Nat) : Nat := Nat.xor (Nat.xor (rotr 17 x) (rotr 19 x)) (shr 10 x)

/-- The 64 SHA-256 round constants. -/
def shaK : List Nat :=
  [1116352408, 1899447441, 3049323471, 3921009573, 961987163,
   1508970993, 2453635748, 2870763221, 3624381080, 310598401,
   607225278, 1426881987, 1925078388, 2162078206, 2614888103,
   3248222580, 3835390401, 4022224774, 264347078, 604807628,
   770255983, 1249150122, 1555081692, 1996064986, 2554220882,
   2821834349, 2952996808, 3210313671, 3336571891, 3584528711,
   113926993, 338241895, 666307205, 773529912, 1294757372,
   1396182291, 1695183700, 1986661051, 2177026350, 2456956037,
   2730485921, 2820302411, 3259730800, 3345764771, 3516065817,
   3600352804, 4094571909, 275423344, 430227734, 506948616,
   659060556, 883997877, 958139571, 1322822218, 1537002063,
   1747873779, 1955562222, 2024104815, 2227730452, 2361852424,
   2428436474, 2756734187, 3204031479, 3329325298]

/-- The eight working registers of the compression function. -/
structure Hash8 where
  a : Nat
  b : Nat
  c : Nat
  d : Nat
  e : Nat
  f : Nat
  g : Nat
  h : Nat
deriving Repr

/-- The SHA-256 initial hash value. -/
def shaInit : Hash8 :=
  ⟨1779033703, 3144134277, 1013904242, 2773480762,
   1359893119, 2600822924, 528734635, 1541459225⟩

/-- SHA-256 message padding: append 0x80, zero bytes to 56 mod 64, and the
bit length as eight big-endian bytes. -/
def shaPad (msg : List Nat) : List Nat :=
  let l := msg.length
  let zeros := (64 + 56 - (l + 1) % 64) % 64
  let bitLen := l * 8
  msg ++ 0x80 :: List.replicate zeros 0 ++
    [m32 (bitLen / 2 ^ 56) % 256, bitLen / 2 ^ 48 % 256, bitLen / 2 ^ 40 % 256,
     bitLen / 2 ^ 32 % 256, bitLen / 2 ^ 24 % 256, bitLen / 2 ^ 16 % 256,
     bitLen / 2 ^ 8 % 256, bitLen % 256]

/-- Pack four bytes into a big-endian 32-bit word. -/
def word4 : List Nat → Nat
  | b0 :: b1 :: b2 :: b3 :: _ => ((b0 * 256 + b1) * 256 + b2) * 256 + b3
  | _ => 0

/-- The sixteen initial schedule words of one 64-byte block. -/
def blockWords (block : List Nat) : List Nat :=
  (List.range 16).map fun i => word4 (block.drop (4 * i))

/-- Extend the schedule to 64 words. -/
def schedule (ws : List Nat) : List Nat :=
  (List.range 48).foldl
    (fun acc _ =>
      let l := acc.length
      acc ++ [add32 (add32 (ssig1 (acc.getD (l - 2) 0)) (acc.getD (l - 7) 0))
                (add32 (ssig0 (acc.getD (l - 15) 0)) (acc.getD (l - 16) 0))])
    ws

/-- One compression round. -/
def shaRound (w k : Nat) (s : Hash8) : Hash8 :=
  let t1 := add32 (add32 (add32 s.h (bsig1 s.e)) (add32 (ch s.e s.f s.g) k)) w
  let t2 := add32 (bsig0 s.a) (maj s.a s.b s.c)
  ⟨add32 t1 t2, s.a, s.b, s.c, add32 s.d t1, s.e, s.f, s.g⟩

/-- Compress one 64-byte block into the running hash. -/
def shaBlock (h0 : Hash8) (block : List Nat) : Hash8 :=
  let ws := schedule (blockWords block)
  let s := (List.range 64).foldl
    (fun s i => shaRound (ws.getD i 0) (shaK.getD i 0) s) h0
  ⟨add32 h0.a s.a, add32 h0.b s.b, add32 h0.c s.c, add32 h0.d s.d,
   add32 h0.e s.e, add32 h0.f s.f, add32 h0.g s.g, add32 h0.h s.h⟩

/-- Split a byte list into 64-byte chunks. -/
def chunks64 (l : List Nat) : List (List Nat) :=
  if h : l = [] then []
  else
    have : l.length - 64 < l.length := by
      cases l with
      | nil => exact absurd rfl h
      | cons a t => simp; omega
    l.take 64 :: chunks64 (l.drop 64)
termination_by l.length
decreasing_by simpa using this

/-- SHA-256 of a byte sequence: pad, then compress block by block. -/
def sha256 (msg : List Nat) : Hash8 :=
  (chunks64 (shaPad msg)).foldl shaBlock shaInit

/-- Lowercase hexadecimal digit for a value below 16. -/
def hexCh (n : Nat) : Char :=
  if n < 10 then Char.ofNat ('0'.toNat + n) else Char.ofNat ('a'.toNat + (n - 10))

/-- Eight lowercase hex characters of one 32-bit word, most significant
digit first. -/
def hex8 (n : Nat) : List Char :=
  [hexCh (n / 16 ^ 7 % 16), hexCh (n / 16 ^ 6 % 16), hexCh (n / 16 ^ 5 % 16),
   hexCh (n / 16 ^ 4 % 16), hexCh (n / 16 ^ 3 % 16), hexCh (n / 16 ^ 2 % 16),
   hexCh (n / 16 % 16), hexCh (n % 16)]

/-- The 64-character lowercase hex digest of a SHA-256 state
(digest('hex')). -/
def hexDigest (s : Hash8) : List Char :=
  hex8 s.a ++ hex8 s.b ++ hex8 s.c ++ hex8 s.d ++
    hex8 s.e ++ hex8 s.f ++ hex8 s.g ++ hex8 s.h

/-- The ASCII byte sequence of a char list (the model restricts content to
ASCII, where UTF-8 bytes coincide with code points). -/
def bytesOf (s : List Char) : List Nat := s.map Char.toNat

/-- computeContentHash: normalize (lower-case, collapse whitespace, trim,
first 5000 chars), SHA-256, first 32 hex characters. -/
def computeContentHash (contentText : String) : String :=
  ⟨(hexDigest (sha256 (bytesOf (normalizeContent contentText.data)))).take 32⟩

/-! ### Digest cron run (apps/cron/src/index.ts, main)

The run is modelled as a pure function of its collaborator inputs: the
database reads (saved articles, existing dedup hashes), the fetched feed
items, configuration, the content extractor (a partial function; `none`
models a caught per-item extraction failure) and the delivery message id.
The outputs are the final digest-run record update and the number of
delivery calls made. -/

/-- A saved article as read from the database (the fields the run uses). -/
structure SavedArticle where
  id : String
  title : String
  author : Option String
  siteName : Option String
  url : String
  contentHtml : String
  readingMinutes : Nat
deriving DecidableEq, Repr

/-- An article chapter handed to the EPUB builder (interface EpubArticle). -/
structure EpubArticle where
  title : String
  author : Option String
  siteName : Option String
  url : String
  contentHtml : String
  readingMinutes : Nat
deriving DecidableEq, Repr

/-- Extraction output (the fields the cron run uses). -/
structure Extracted where
  title : String
  author : Option String
  siteName : Option String
  contentHtml : String
  readingMinutes : Nat
deriving DecidableEq, Repr

/-- Digest-run status (enum DigestStatus). -/
inductive DigestStatus where
  | success
  | failed
deriving DecidableEq, Repr

/-- The feed-item summary persisted on the run record. -/
structure FeedItemRecord where
  title : String
  link : String
  score : ℚ
  topics : List String
deriving DecidableEq, Repr

/-- The digest-run record update written at the end of a run. -/
structure DigestRunUpdate where
  status : DigestStatus
  includedArticleIds : List String
  feedItemsIncluded : List FeedItemRecord
  epubFilename : Option String
  emailMessageId : Option String
  error : Option String
deriving DecidableEq, Repr

/-- The collaborator inputs of one cron run. -/
structure CronInputs where
  savedArticles : List SavedArticle
  feedItems : List FeedItem
  interests : DigestInterests
  existingHashes : List String
  maxRss : Nat
  maxPerTopic : Nat
  maxArticles : Nat
  now : ℚ
  extract : String → Option Extracted
  messageId : String
  epubFilename : String

/-- The observable outcome of one cron run. -/
structure CronResult where
  update : DigestRunUpdate
  emailsSent : Nat
deriving Repr

/-- The scored-then-deduplicated feed items of a run (steps 3 of main:
score and rank, then drop items whose canonical link is already known). -/
def dedupedItems (inp : CronInputs) : List ScoredFeedItem :=
  (scoreAndRankFeedItems inp.now inp.feedItems inp.interests).filter
    fun item => ¬ canonicalizeUrl item.link ∈ inp.existingHashes

/-- The diverse selection of a run (end of step 3 of main). -/
def selectedFeedItems (inp : CronInputs) : List ScoredFeedItem :=
  selectDiverseItems (dedupedItems inp) inp.maxRss inp.maxPerTopic

/-- The digest cron run (main), from the collaborator inputs to the final
run-record update and delivery count. -/
def runDigest (inp : CronInputs) : CronResult :=
  let selected := selectedFeedItems inp
  if inp.savedArticles.length = 0 ∧ selected.length = 0 then
    { update :=
        { status := DigestStatus.success
          includedArticleIds := []
          feedItemsIncluded := []
          epubFilename := none
          emailMessageId := none
          error := some "No articles available" }
      emailsSent := 0 }
  else
    let extractedPairs := selected.filterMap fun item =>
      (inp.extract item.link).map fun ex => (item, ex)
    let feedArticles : List EpubArticle := extractedPairs.map fun p =>
      { title := p.2.title
        author := p.2.author
        siteName := some ((p.2.siteName).getD p.1.feedTitle)
        url := p.1.link
        contentHtml := p.2.contentHtml
        readingMinutes := p.2.readingMinutes }
    let savedEpub : List EpubArticle := inp.savedArticles.map fun a =>
      { title := a.title
        author := a.author
        siteName := a.siteName
        url := a.url
        contentHtml := a.contentHtml
        readingMinutes := a.readingMinutes }
    let finalArticles := (savedEpub ++ feedArticles).take inp.maxArticles
    let includedArticleIds :=
      (inp.savedArticles.take finalArticles.length).map fun a => a.id
    { update :=
        { status := DigestStatus.success
          includedArticleIds := includedArticleIds
          feedItemsIncluded := extractedPairs.map fun p =>
            { title := p.1.title
              link := p.1.link
              score := p.1.score
              topics := p.1.matchedTopics }
          epubFilename := some inp.epubFilename
          emailMessageId := some inp.messageId
          error := none }
      emailsSent := 1 }

/-! ### Concrete inputs used by the spec's worked examples and by the
witnesses -/

/-- A scored item as built by the diversity-selection unit fixture:
given title, score and a single matched topic. -/
def mkScoredItem (title : String) (score : ℚ) (topic : String) : ScoredFeedItem :=
  { title := title
    link := "https://example.com/" ++ title
    pubDate := some 0
    content := ""
    contentSnippet := ""
    author := none
    feedTitle := "Test"
    feedUrl := "https://example.com/feed.rss"
    score := score
    matchedTopics := [topic]
    matchedKeywords := []
    recencyScore := 50 }

/-- A minimal article-for-ranking fixture. -/
def mkArticle (id title : String) (save : Bool) (topics : List String) :
    ArticleForRanking :=
  { id := id
    title := title
    source := "src"
    pubDate := none
    excerpt := "excerpt"
    contentSnippet := ""
    url := "https://example.com/" ++ id
    isManualSave := save
    matchedTopics := some topics }

/-- A feed-item fixture whose title matches the demo interests. -/
def demoFeedItem : FeedItem :=
  { title := "Apple announces iPhone"
    link := "https://example.com/apple"
    pubDate := none
    content := ""
    contentSnippet := ""
    author := none
    feedTitle := "Test Feed"
    feedUrl := "https://example.com/feed.rss" }

/-- A one-topic demo interest configuration. -/
def demoInterests : DigestInterests :=
  [("tech", { keywords := ["apple"], feeds := none })]

/-- Well-formedness of a parsed URL record: exactly the records the model
parser can produce. -/
def wfUrl (r : UrlRec) : Prop :=
  (r.scheme = "http".data ∨ r.scheme = "https".data) ∧
  r.host ≠ [] ∧ r.host.all hostChar = true ∧
  r.path.head? = some '/' ∧ r.path.all pathChar = true ∧
  ∀ kv ∈ r.query,
    kv.1 ≠ [] ∧ kv.1.all queryChar = true ∧ kv.2.all queryChar = true

/-! ## Theorems -/

/-- C4: scoreKeyword lower-cases and normalizes both strings, counts
word-boundary-anchored occurrences of the normalized keyword, and returns
min 10 (occurrences * 2); in particular a single occurrence of "apple"
scores 2, six occurrences score 10, and no input ever scores above 10. -/
theorem scoreKeyword_spec :
    (∀ keyword text : String,
      scoreKeyword keyword text =
        min 10 (2 * countMatches (normalizeChars keyword.data) (normalizeChars text.data))) ∧
    scoreKeyword "apple" "Apple announces iPhone" = 2 ∧
    scoreKeyword "apple" "Apple Apple Apple Apple Apple Apple" = 10 ∧
    (∀ keyword text : String, scoreKeyword keyword text ≤ 10) :=
  ⟨fun _ _ => rfl, by decide, by decide, fun _ _ => Nat.min_le_left 10 _⟩

/-- C1: selectDiverseItems is the two-pass greedy selection — the
cap-respecting diversity pass followed, only when under-filled, by the
cap-ignoring fill pass — and on the 4+2 fixture with maxItems 5 and
maxPerTopic 2 it returns exactly the items scored 100, 90, 60, 50, 80 in
that order. -/
theorem selectDiverseItems_twoPass :
    (∀ (scored : List ScoredFeedItem) (maxItems maxPerTopic : Nat),
      selectDiverseItems scored maxItems maxPerTopic =
        let selected := diversityPass maxItems maxPerTopic scored [] []
        if selected.length < maxItems then fillPass maxItems scored selected
        else selected) ∧
    selectDiverseItems
        [mkScoredItem "Apple 1" 100 "tech", mkScoredItem "Apple 2" 90 "tech",
         mkScoredItem "Apple 3" 80 "tech", mkScoredItem "Apple 4" 70 "tech",
         mkScoredItem "AI 1" 60 "ai", mkScoredItem "AI 2" 50 "ai"] 5 2 =
      [mkScoredItem "Apple 1" 100 "tech", mkScoredItem "Apple 2" 90 "tech",
       mkScoredItem "AI 1" 60 "ai", mkScoredItem "AI 2" 50 "ai",
       mkScoredItem "Apple 3" 80 "tech"] :=
  ⟨fun _ _ _ => rfl, by decide⟩

/-- C9: a run that finds no saved articles and no selected feed items
exits early: no delivery call is made and the digest-run record is
updated to SUCCESS with empty article and feed-item lists and the error
text "No articles available". -/
theorem runDigest_earlyExit (inp : CronInputs)
    (h1 : inp.savedArticles = []) (h2 : selectedFeedItems inp = []) :
    runDigest inp =
      { update :=
          { status := DigestStatus.success
            includedArticleIds := []
            feedItemsIncluded := []
            epubFilename := none
            emailMessageId := none
            error := some "No articles available" }
        emailsSent := 0 } := by
  unfold runDigest
  rw [if_pos]
  exact ⟨by rw [h1]; rfl, by rw [h2]; rfl⟩

/-- Witness for C9 at a concrete all-empty run. -/
theorem runDigest_earlyExit_witness :
    runDigest
        { savedArticles := []
          feedItems := []
          interests := []
          existingHashes := []
          maxRss := 10
          maxPerTopic := 3
          maxArticles := 15
          now := 0
          extract := fun _ => none
          messageId := "m"
          epubFilename := "f" } =
      { update :=
          { status := DigestStatus.success
            includedArticleIds := []
            feedItemsIncluded := []
            epubFilename := none
            emailMessageId := none
            error := some "No articles available" }
        emailsSent := 0 } :=
  runDigest_earlyExit _ rfl (by
    simp [selectedFeedItems, dedupedItems, scoreAndRankFeedItems,
      selectDiverseItems, diversityPass, fillPass])

/-! ### Association-map helper lemmas -/

theorem mapSet_not_mem {κ β : Type} [DecidableEq κ] (m : List (κ × β)) (k : κ)
    (v : β) (h : ∀ kv ∈ m, kv.1 ≠ k) : mapSet m k v = m ++ [(k, v)] := by
  unfold mapSet
  rw [if_neg]
  intro hc
  simp only [List.any_eq_true, decide_eq_true_eq] at hc
  obtain ⟨kv, hm, he⟩ := hc
  exact h kv hm he

theorem foldl_mapSet_eq {α κ β : Type} [DecidableEq κ] (key : α → κ)
    (val : α → β) :
    ∀ (l : List α) (m : List (κ × β)),
      (m.map Prod.fst ++ l.map key).Nodup →
      l.foldl (fun acc x => mapSet acc (key x) (val x)) m =
        m ++ l.map fun x => (key x, val x)
  | [], m, _ => by simp
  | x :: xs, m, hnd => by
    have hsplit := List.nodup_append.mp hnd
    have hx : ∀ kv ∈ m, kv.1 ≠ key x := by
      intro kv hm
      have hmem : kv.1 ∈ m.map Prod.fst := List.mem_map_of_mem Prod.fst hm
      have := hsplit.2.2 hmem
      simp only [List.map_cons, List.mem_cons] at this
      intro he
      exact this (Or.inl he)
    have hrec : ((m ++ [(key x, val x)]).map Prod.fst ++ xs.map key).Nodup := by
      simpa using hnd
    calc (x :: xs).foldl (fun acc y => mapSet acc (key y) (val y)) m
        = xs.foldl (fun acc y => mapSet acc (key y) (val y))
            (m ++ [(key x, val x)]) := by
          rw [List.foldl_cons, mapSet_not_mem m (key x) (val x) hx]
      _ = (m ++ [(key x, val x)]) ++ xs.map fun y => (key y, val y) :=
          foldl_mapSet_eq key val xs (m ++ [(key x, val x)]) hrec
      _ = m ++ (x :: xs).map fun y => (key y, val y) := by simp

theorem mapGet_keyed {α κ β : Type} [DecidableEq κ] (key : α → κ) (val : α → β) :
    ∀ (l : List α), (l.map key).Nodup → ∀ x ∈ l,
      mapGet (l.map fun y => (key y, val y)) (key x) = some (val x)
  | [], _, x, hx => absurd hx (List.not_mem_nil x)
  | y :: ys, hnd, x, hx => by
    rcases List.mem_cons.mp hx with heq | hmem
    · subst heq
      simp [mapGet]
    · have hne : key y ≠ key x := by
        intro he
        have : key x ∈ ys.map key := List.mem_map_of_mem key hmem
        rw [← he] at this
        exact (List.nodup_cons.mp (by simpa using hnd)).1 this
      simp only [List.map_cons, mapGet, if_neg hne]
      exact mapGet_keyed key val ys (List.nodup_cons.mp (by simpa using hnd)).2 x hmem

/-! ### C8: fallback summaries -/

theorem generateFallbackSummaries_eq (pairs : List (ArticleForRanking × Tier))
    (h : (pairs.map fun p => p.1.id).Nodup) :
    generateFallbackSummaries pairs =
      pairs.map fun p =>
        (p.1.id,
          ({ summary := fallbackSummaryText p.1.excerpt p.2
             oneLiner := some p.1.title } : SummaryResponse)) := by
  unfold generateFallbackSummaries
  have := foldl_mapSet_eq (fun p : ArticleForRanking × Tier => p.1.id)
    (fun p : ArticleForRanking × Tier =>
      ({ summary := fallbackSummaryText p.1.excerpt p.2
         oneLiner := some p.1.title } : SummaryResponse))
    pairs [] (by simpa using h)
  simpa using this

/-- C8: generateFallbackSummaries gives every article a summary equal to
its excerpt truncated to 400 characters (critical tier) or 150 characters
(other tiers) with the ellipsis marker appended, and a one-liner equal to
the article title; for a 500-character excerpt the critical summary is at
most 404 characters long and the other tiers at most 154. -/
theorem generateFallbackSummaries_spec :
    (∀ (pairs : List (ArticleForRanking × Tier)),
      (pairs.map fun p => p.1.id).Nodup →
      ∀ p ∈ pairs,
        mapGet (generateFallbackSummaries pairs) p.1.id =
          some { summary := fallbackSummaryText p.1.excerpt p.2
                 oneLiner := some p.1.title }) ∧
    (∀ (excerpt : String) (tier : Tier), excerpt.length = 500 →
      (fallbackSummaryText excerpt tier).length ≤ 404 ∧
      (tier ≠ Tier.critical → (fallbackSummaryText excerpt tier).length ≤ 154)) := by
  constructor
  · intro pairs h p hp
    rw [generateFallbackSummaries_eq pairs h]
    exact mapGet_keyed _ _ pairs h p hp
  · intro excerpt tier hlen
    have hdata : excerpt.data.length = 500 := hlen
    have key : (fallbackSummaryText excerpt tier).length =
        min (if tier = Tier.critical then 400 else 150) 500 + 3 := by
      simp [fallbackSummaryText, strTake, String.length_append, String.length,
        List.length_take, hdata]
    rcases Decidable.em (tier = Tier.critical) with h | h
    · exact ⟨by rw [key]; norm_num [h], fun hne => absurd h hne⟩
    · exact ⟨by rw [key]; norm_num [h], fun _ => by rw [key]; norm_num [h]⟩

/-- Witness for C8 at a concrete article and a concrete 500-character
excerpt. -/
theorem generateFallbackSummaries_witness :
    mapGet (generateFallbackSummaries [(mkArticle "a" "T" false [], Tier.critical)])
        (mkArticle "a" "T" false []).id =
      some { summary := fallbackSummaryText (mkArticle "a" "T" false []).excerpt
               Tier.critical
             oneLiner := some (mkArticle "a" "T" false []).title } ∧
    (fallbackSummaryText ⟨List.replicate 500 'x'⟩ Tier.notable).length ≤ 154 :=
  ⟨generateFallbackSummaries_spec.1 [(mkArticle "a" "T" false [], Tier.critical)]
      (by decide) (mkArticle "a" "T" false [], Tier.critical) (by simp),
   (generateFallbackSummaries_spec.2 ⟨List.replicate 500 'x'⟩ Tier.notable
      (show (List.replicate 500 'x').length = 500 from List.length_replicate 500 'x')).2
     (by decide)⟩

/-! ### C5: per-item scoring -/

theorem scoreTopic_fst_const (text : String) :
    ∀ (kws : List String) (n : Nat) (mk mk₂ : List String),
      (List.foldl (scoreTopicStep text) (n, mk) kws).1 =
        n + (List.foldl (scoreTopicStep text) (0, mk₂) kws).1
  | [], n, mk, mk₂ => by simp
  | kw :: kws, n, mk, mk₂ => by
    simp only [List.foldl_cons]
    by_cases h : 0 < scoreKeyword kw text
    · simp only [scoreTopicStep, if_pos h]
      rw [scoreTopic_fst_const text kws (n + scoreKeyword kw text) _ mk₂,
        scoreTopic_fst_const text kws (0 + scoreKeyword kw text) _ mk₂]
      omega
    · simp only [scoreTopicStep, if_neg h]
      rw [scoreTopic_fst_const text kws n mk mk₂,
        scoreTopic_fst_const text kws 0 mk₂ mk₂]

theorem scoreTopic_fst (text : String) (tp : InterestTopic) (mk : List String) :
    (scoreTopic text tp.keywords mk).1 = topicScoreOf text tp := by
  unfold topicScoreOf scoreTopic
  rw [scoreTopic_fst_const text tp.keywords 0 mk []]
  simp

theorem scoreTopicsLoop_spec (text : String) :
    ∀ (ints : DigestInterests) (total : Nat) (topics mkws : List String),
      (scoreTopicsLoop text ints (total, topics, mkws)).1 =
        total + ((ints.map fun e => topicScoreOf text e.2).filter
          (fun n => 0 < n)).sum ∧
      (scoreTopicsLoop text ints (total, topics, mkws)).2.1 =
        topics ++ (ints.filter fun e => 0 < topicScoreOf text e.2).map Prod.fst
  | [], total, topics, mkws => by simp [scoreTopicsLoop]
  | (name, tp) :: ints, total, topics, mkws => by
    have hfst := scoreTopic_fst text tp mkws
    by_cases h : 0 < (scoreTopic text tp.keywords mkws).1
    · have hpos : 0 < topicScoreOf text tp := hfst ▸ h
      have ih := scoreTopicsLoop_spec text ints (total + (scoreTopic text tp.keywords mkws).1)
        (topics ++ [name]) (scoreTopic text tp.keywords mkws).2
      constructor
      · rw [show scoreTopicsLoop text ((name, tp) :: ints) (total, topics, mkws) =
            scoreTopicsLoop text ints
              (total + (scoreTopic text tp.keywords mkws).1, topics ++ [name],
                (scoreTopic text tp.keywords mkws).2) by
              simp [scoreTopicsLoop, h]]
        rw [ih.1, hfst]
        simp [hpos]
        omega
      · rw [show scoreTopicsLoop text ((name, tp) :: ints) (total, topics, mkws) =
            scoreTopicsLoop text ints
              (total + (scoreTopic text tp.keywords mkws).1, topics ++ [name],
                (scoreTopic text tp.keywords mkws).2) by
              simp [scoreTopicsLoop, h]]
        rw [ih.2]
        simp [hpos]
    · have hneg : ¬ 0 < topicScoreOf text tp := hfst ▸ h
      have ih := scoreTopicsLoop_spec text ints total topics
        (scoreTopic text tp.keywords mkws).2
      constructor
      · rw [show scoreTopicsLoop text ((name, tp) :: ints) (total, topics, mkws) =
            scoreTopicsLoop text ints
              (total, topics, (scoreTopic text tp.keywords mkws).2) by
              simp [scoreTopicsLoop, h]]
        rw [ih.1]
        simp [hneg]
      · rw [show scoreTopicsLoop text ((name, tp) :: ints) (total, topics, mkws) =
            scoreTopicsLoop text ints
              (total, topics, (scoreTopic text tp.keywords mkws).2) by
              simp [scoreTopicsLoop, h]]
        rw [ih.2]
        simp [hneg]

/-- C5: the recency score is 100 up to 6 hours of age, 0 from 72 hours,
linearly interpolated as 100 - (ageHours - 6) * (100/66) in between, and 0
without a publish date; the final score is the sum of the positive
per-topic keyword scores plus 0.2 times the recency score; an item whose
topics all score zero still gets a score object, with an empty
matched-topics list. -/
theorem scoreFeedItem_spec :
    (∀ now : ℚ, calculateRecencyScore now none = 0) ∧
    (∀ now t : ℚ, (now - t) / (1000 * 60 * 60) ≤ 6 →
      calculateRecencyScore now (some t) = 100) ∧
    (∀ now t : ℚ, 72 ≤ (now - t) / (1000 * 60 * 60) →
      calculateRecencyScore now (some t) = 0) ∧
    (∀ now t : ℚ, 6 < (now - t) / (1000 * 60 * 60) →
      (now - t) / (1000 * 60 * 60) < 72 →
      calculateRecencyScore now (some t) =
        100 - ((now - t) / (1000 * 60 * 60) - 6) * (100 / 66)) ∧
    (∀ (now : ℚ) (item : FeedItem) (interests : DigestInterests),
      (scoreFeedItem now item interests).score =
        ((((interests.map fun e => topicScoreOf (textToSearch item) e.2).filter
            (fun n => 0 < n)).sum : Nat) : ℚ) +
          calculateRecencyScore now item.pubDate * (1 / 5)) ∧
    (∀ (now : ℚ) (item : FeedItem) (interests : DigestInterests),
      (scoreFeedItem now item interests).matchedTopics = [] ↔
        ∀ e ∈ interests, topicScoreOf (textToSearch item) e.2 = 0) := by
  refine ⟨fun _ => rfl, ?_, ?_, ?_, ?_, ?_⟩
  · intro now t h
    simp only [calculateRecencyScore]
    rw [if_pos h]
  · intro now t h
    have h6 : ¬ (now - t) / (1000 * 60 * 60) ≤ 6 := by
      intro hle
      linarith
    simp only [calculateRecencyScore]
    rw [if_neg h6, if_pos h]
  · intro now t h1 h2
    have h6 : ¬ (now - t) / (1000 * 60 * 60) ≤ 6 := not_le.mpr h1
    have h72 : ¬ 72 ≤ (now - t) / (1000 * 60 * 60) := not_le.mpr h2
    simp only [calculateRecencyScore]
    rw [if_neg h6, if_neg h72, max_eq_right]
    nlinarith [h1, h2]
  · intro now item interests
    have := (scoreTopicsLoop_spec (textToSearch item) interests 0 [] []).1
    simp only [scoreFeedItem, this]
    push_cast
    ring
  · intro now item interests
    have := (scoreTopicsLoop_spec (textToSearch item) interests 0 [] []).2
    simp only [scoreFeedItem, this, List.nil_append]
    rw [List.map_eq_nil_iff, List.filter_eq_nil_iff]
    constructor
    · intro h e he
      have := h e he
      simpa using this
    · intro h e he
      simpa using h e he

/-- Witness for C5: concrete recency values at ages 0, 72 and 39 hours,
and a concrete item whose matched-topics list is non-empty. -/
theorem scoreFeedItem_witness :
    calculateRecencyScore 0 (some 0) = 100 ∧
    calculateRecencyScore 259200000 (some 0) = 0 ∧
    calculateRecencyScore 140400000 (some 0) = 50 ∧
    (scoreFeedItem 0 demoFeedItem demoInterests).matchedTopics ≠ [] := by
  refine ⟨scoreFeedItem_spec.2.1 0 0 (by norm_num),
    scoreFeedItem_spec.2.2.1 259200000 0 (by norm_num), ?_, ?_⟩
  · have := scoreFeedItem_spec.2.2.2.1 140400000 0 (by norm_num) (by norm_num)
    rw [this]
    norm_num
  · intro h
    have h0 := (scoreFeedItem_spec.2.2.2.2.2 0 demoFeedItem demoInterests).mp h
      ("tech", { keywords := ["apple"], feeds := none }) (by simp [demoInterests])
    exact absurd h0 (by decide)

/-! ### C6: ranking is a stable score-descending sort of the relevant
items -/

theorem scoreDescLe_trans (a b c : ScoredFeedItem) :
    scoreDescLe a b → scoreDescLe b c → scoreDescLe a c := by
  simp only [scoreDescLe, decide_eq_true_eq]
  exact fun hab hbc => le_trans hbc hab

theorem scoreDescLe_total (a b : ScoredFeedItem) :
    scoreDescLe a b || scoreDescLe b a := by
  simp only [scoreDescLe, Bool.or_eq_true, decide_eq_true_eq]
  exact le_total b.score a.score

/-- C6: scoreAndRankFeedItems keeps no zero-topic item, returns exactly
the scored versions of the inputs having at least one matched topic, is
sorted by score descending, and the sort is stable (for every score the
items with that score appear in their pre-sort order). -/
theorem scoreAndRankFeedItems_spec (now : ℚ) (items : List FeedItem)
    (interests : DigestInterests) :
    (∀ x ∈ scoreAndRankFeedItems now items interests, x.matchedTopics ≠ []) ∧
    (scoreAndRankFeedItems now items interests).Perm
      ((items.map fun i => scoreFeedItem now i interests).filter
        (fun i => i.matchedTopics ≠ [])) ∧
    (scoreAndRankFeedItems now items interests).Pairwise
      (fun a b => b.score ≤ a.score) ∧
    (∀ q : ℚ,
      (scoreAndRankFeedItems now items interests).filter (fun x => x.score = q) =
        ((items.map fun i => scoreFeedItem now i interests).filter
          (fun i => i.matchedTopics ≠ [])).filter (fun x => x.score = q)) := by
  have hout : scoreAndRankFeedItems now items interests =
      ((items.map fun i => scoreFeedItem now i interests).filter
        (fun i => i.matchedTopics ≠ [])).mergeSort scoreDescLe := rfl
  set base := (items.map fun i => scoreFeedItem now i interests).filter
    (fun i => i.matchedTopics ≠ []) with hbase
  have hperm : (base.mergeSort scoreDescLe).Perm base :=
    List.mergeSort_perm base scoreDescLe
  refine ⟨?_, ?_, ?_, ?_⟩
  · intro x hx
    rw [hout] at hx
    have hxb : x ∈ base := (List.mem_mergeSort).mp hx
    have := (List.mem_filter.mp hxb).2
    simpa using this
  · rw [hout]; exact hperm
  · rw [hout]
    have hs := List.sorted_mergeSort scoreDescLe_trans scoreDescLe_total base
    exact hs.imp fun h => by simpa [scoreDescLe] using h
  · intro q
    rw [hout]
    have hall : ∀ x ∈ base.filter (fun x => x.score = q),
        ∀ y ∈ base.filter (fun x => x.score = q), scoreDescLe x y := by
      intro x hx y hy
      have hx2 := (List.mem_filter.mp hx).2
      have hy2 := (List.mem_filter.mp hy).2
      simp only [decide_eq_true_eq] at hx2 hy2
      simp [scoreDescLe, hx2, hy2]
    have hpw : (base.filter (fun x => x.score = q)).Pairwise
        (fun a b => scoreDescLe a b = true) :=
      List.pairwise_of_forall_mem_list hall
    have hsub : List.Sublist (base.filter (fun x => x.score = q))
        (base.mergeSort scoreDescLe) :=
      List.sublist_mergeSort scoreDescLe_trans scoreDescLe_total hpw
        (List.filter_sublist base)
    have hsub2 : List.Sublist (base.filter (fun x => x.score = q))
        ((base.mergeSort scoreDescLe).filter (fun x => x.score = q)) := by
      have := hsub.filter (fun x => x.score = q)
      simpa using this
    have hlen : ((base.mergeSort scoreDescLe).filter
        (fun x => x.score = q)).length =
        (base.filter (fun x => x.score = q)).length := by
      rw [← List.countP_eq_length_filter, ← List.countP_eq_length_filter]
      exact hperm.countP_eq _
    exact (hsub2.eq_of_length hlen.symm).symm

/-- Witness for C6: the single scored demo item survives the filter, and
the theorem's membership hypothesis is discharged on it. -/
theorem scoreAndRankFeedItems_witness :
    (scoreFeedItem 0 demoFeedItem demoInterests).matchedTopics ≠ [] :=
  (scoreAndRankFeedItems_spec 0 [demoFeedItem] demoInterests).1
    (scoreFeedItem 0 demoFeedItem demoInterests)
    (by
      simp only [scoreAndRankFeedItems, List.mem_mergeSort, List.map_cons,
        List.map_nil, List.mem_filter]
      exact ⟨by simp, by decide⟩)

/-! ### C3: deterministic fallback ranking -/

theorem fallbackLe_trans (a b c : ArticleForRanking) :
    fallbackLe a b → fallbackLe b c → fallbackLe a c := by
  cases ha : a.isManualSave <;> cases hb : b.isManualSave <;>
    cases hc : c.isManualSave <;>
      simp [fallbackLe, ha, hb, hc] <;> omega

theorem fallbackLe_total (a b : ArticleForRanking) :
    fallbackLe a b || fallbackLe b a := by
  cases ha : a.isManualSave <;> cases hb : b.isManualSave <;>
    simp [fallbackLe, ha, hb] <;> omega

theorem mapGet_enumFrom {β : Type} (val : Nat → ArticleForRanking → β) :
    ∀ (s : List ArticleForRanking) (k : Nat),
      (s.map fun a => a.id).Nodup →
      ∀ (i : Nat) (hi : i < s.length),
        mapGet ((s.enumFrom k).map fun ia => (ia.2.id, val ia.1 ia.2))
          (s.get ⟨i, hi⟩).id = some (val (k + i) (s.get ⟨i, hi⟩))
  | [], _, _, i, hi => absurd hi (by simp)
  | a :: t, k, hnd, 0, hi => by simp [List.enumFrom, mapGet]
  | a :: t, k, hnd, i + 1, hi => by
    have hit : i < t.length := by simpa using Nat.lt_of_succ_lt_succ hi
    have hnd2 : a.id ∉ (t.map fun x => x.id) ∧ (t.map fun x => x.id).Nodup := by
      rw [List.map_cons] at hnd
      exact List.nodup_cons.mp hnd
    have hne : a.id ≠ (t.get ⟨i, hit⟩).id := by
      intro he
      exact hnd2.1 (he ▸ List.mem_map_of_mem (fun x => x.id) (t.get_mem i hit))
    have ih := mapGet_enumFrom val t (k + 1) hnd2.2 i hit
    simp only [List.enumFrom, List.map_cons, List.get_cons_succ, mapGet,
      if_neg hne]
    rw [ih, Nat.add_assoc, Nat.add_comm 1 i]

theorem applyFallbackRanking_eq (articles : List ArticleForRanking)
    (hne : articles ≠ []) (hids : (articles.map fun a => a.id).Nodup) :
    applyFallbackRanking articles =
      (fallbackSorted articles).enum.map fun ia =>
        (ia.2.id,
          (tierForIndex articles.length ia.1, "Keyword-based fallback ranking")) := by
  unfold applyFallbackRanking
  rw [if_neg (by simpa [List.isEmpty_iff] using hne)]
  have hperm : (fallbackSorted articles).Perm articles :=
    List.mergeSort_perm articles fallbackLe
  have hnds : ((fallbackSorted articles).map fun a => a.id).Nodup :=
    ((hperm.map fun a => a.id).nodup_iff).mpr hids
  have hkeys : ((fallbackSorted articles).enum.map fun ia => ia.2.id) =
      (fallbackSorted articles).map fun a => a.id := by
    rw [show (fun ia : Nat × ArticleForRanking => ia.2.id) =
        ((fun a : ArticleForRanking => a.id) ∘ Prod.snd) from rfl,
      ← List.map_map, List.enum_map_snd]
  have := foldl_mapSet_eq (fun ia : Nat × ArticleForRanking => ia.2.id)
    (fun ia : Nat × ArticleForRanking =>
      (tierForIndex articles.length ia.1, "Keyword-based fallback ranking"))
    (fallbackSorted articles).enum []
    (by simpa [hkeys] using hnds)
  simpa using this

/-- C3: applyFallbackRanking stably sorts by manual-save flag then
matched-topic count (every manual save precedes every non-save), assigns
critical to the first max(1, n/5) positions of the sorted list, notable to
the next max(2, 3n/10), related to the rest, covers exactly the input ids,
and gives a single article the critical tier. -/
theorem applyFallbackRanking_spec (articles : List ArticleForRanking)
    (hne : articles ≠ []) (hids : (articles.map fun a => a.id).Nodup) :
    (fallbackSorted articles).Perm articles ∧
    (fallbackSorted articles).Pairwise
      (fun a b => b.isManualSave = true → a.isManualSave = true) ∧
    ((applyFallbackRanking articles).map Prod.fst).Perm
      (articles.map fun a => a.id) ∧
    (∀ (i : Nat) (hi : i < (fallbackSorted articles).length),
      mapGet (applyFallbackRanking articles)
        ((fallbackSorted articles).get ⟨i, hi⟩).id =
        some (tierForIndex articles.length i,
          "Keyword-based fallback ranking")) ∧
    (∀ n i : Nat, tierForIndex n i =
      if i < max 1 (n / 5) then Tier.critical
      else if i < max 1 (n / 5) + max 2 (n * 3 / 10) then Tier.notable
      else Tier.related) ∧
    (∀ a : ArticleForRanking,
      mapGet (applyFallbackRanking [a]) a.id =
        some (Tier.critical, "Keyword-based fallback ranking")) := by
  have hperm : (fallbackSorted articles).Perm articles :=
    List.mergeSort_perm articles fallbackLe
  have hnds : ((fallbackSorted articles).map fun a => a.id).Nodup :=
    ((hperm.map fun a => a.id).nodup_iff).mpr hids
  refine ⟨hperm, ?_, ?_, ?_, fun n i => rfl, ?_⟩
  · have hs := List.sorted_mergeSort fallbackLe_trans fallbackLe_total articles
    refine hs.imp ?_
    intro a b h hb
    by_cases ha : a.isManualSave
    · exact ha
    · exfalso
      rw [fallbackLe, if_pos (by simp [ha, hb]), Bool.eq_false_iff.mpr ha] at h
      exact Bool.false_ne_true h
  · rw [applyFallbackRanking_eq articles hne hids]
    have hkeys : (((fallbackSorted articles).enum.map fun ia =>
        (ia.2.id,
          (tierForIndex articles.length ia.1,
            "Keyword-based fallback ranking"))).map Prod.fst) =
        (fallbackSorted articles).map fun a => a.id := by
      rw [List.map_map,
        show (Prod.fst ∘ fun ia : Nat × ArticleForRanking =>
            (ia.2.id,
              (tierForIndex articles.length ia.1,
                "Keyword-based fallback ranking"))) =
          ((fun a : ArticleForRanking => a.id) ∘ Prod.snd) from rfl,
        ← List.map_map, List.enum_map_snd]
    rw [hkeys]
    exact hperm.map fun a => a.id
  · intro i hi
    rw [applyFallbackRanking_eq articles hne hids]
    have := mapGet_enumFrom
      (fun j a => (tierForIndex articles.length j,
        "Keyword-based fallback ranking"))
      (fallbackSorted articles) 0 hnds i hi
    simpa using this
  · intro a
    rw [applyFallbackRanking_eq [a] (by simp) (by simp)]
    simp [fallbackSorted, List.enum, List.enumFrom, mapGet, tierForIndex,
      criticalCount]

/-- Witness for C3: a concrete one-article run is ranked critical. -/
theorem applyFallbackRanking_witness :
    mapGet (applyFallbackRanking [mkArticle "s" "S" true []])
        (mkArticle "s" "S" true []).id =
      some (Tier.critical, "Keyword-based fallback ranking") :=
  (applyFallbackRanking_spec [mkArticle "s" "S" true []] (by decide)
      (by decide)).2.2.2.2.2 (mkArticle "s" "S" true [])

/-! ### C7: content fingerprint -/

theorem hexCh_mem_of_lt : ∀ m : Nat, m < 16 →
    ("0123456789abcdef").data.contains (hexCh m) = true := by decide

theorem hexCh_contains (n : Nat) :
    ("0123456789abcdef").data.contains (hexCh (n % 16)) = true :=
  hexCh_mem_of_lt (n % 16) (Nat.mod_lt n (by norm_num))

theorem hexDigest_length (s : Hash8) : (hexDigest s).length = 64 := by
  simp [hexDigest, hex8]

theorem hexDigest_all (s : Hash8) :
    (hexDigest s).all (fun c => ("0123456789abcdef").data.contains c) = true := by
  simp only [hexDigest, hex8, List.all_append, List.all_cons, List.all_nil,
    Bool.and_eq_true, Bool.and_true]
  repeat' apply And.intro
  all_goals exact hexCh_contains _

/-- C7: computeContentHash always returns a 32-character string of
lowercase hexadecimal characters — also on the empty input — and inputs
differing only in letter case or whitespace runs (here "Hello   World"
versus "hello world") have equal fingerprints. -/
theorem computeContentHash_spec :
    (∀ s : String, (computeContentHash s).length = 32) ∧
    (∀ s : String,
      (computeContentHash s).data.all
        (fun c => ("0123456789abcdef").data.contains c) = true) ∧
    computeContentHash "Hello   World" = computeContentHash "hello world" := by
  refine ⟨?_, ?_, ?_⟩
  · intro s
    show ((hexDigest (sha256 (bytesOf (normalizeContent s.data)))).take 32).length = 32
    rw [List.length_take, hexDigest_length]
    omega
  · intro s
    show ((hexDigest (sha256 (bytesOf (normalizeContent s.data)))).take 32).all _ = true
    rw [List.all_eq_true]
    intro c hc
    have hmem : c ∈ hexDigest (sha256 (bytesOf (normalizeContent s.data))) :=
      List.take_subset 32 _ hc
    have := hexDigest_all (sha256 (bytesOf (normalizeContent s.data)))
    rw [List.all_eq_true] at this
    exact this c hmem
  · have hn : normalizeContent ("Hello   World".data) =
        normalizeContent ("hello world".data) := by decide
    unfold computeContentHash
    rw [hn]

/-! ### C10: selection invariants -/

theorem diversityPass_append (maxI maxP : Nat) :
    ∀ (items sel : List ScoredFeedItem) (counts : List (Option String × Nat)),
      ∃ t, diversityPass maxI maxP items sel counts = sel ++ t ∧
        List.Sublist t items
  | [], sel, counts => ⟨[], by simp [diversityPass]⟩
  | item :: rest, sel, counts => by
    by_cases hlen : maxI ≤ sel.length
    · exact ⟨[], by simp [diversityPass, hlen]⟩
    · by_cases hcnt : countOf counts item.matchedTopics.head? < maxP
      · obtain ⟨t, ht, hs⟩ := diversityPass_append maxI maxP rest (sel ++ [item])
          (mapSet counts item.matchedTopics.head?
            (countOf counts item.matchedTopics.head? + 1))
        refine ⟨item :: t, ?_, hs.cons₂ item⟩
        rw [show diversityPass maxI maxP (item :: rest) sel counts =
            diversityPass maxI maxP rest (sel ++ [item])
              (mapSet counts item.matchedTopics.head?
                (countOf counts item.matchedTopics.head? + 1)) by
            simp [diversityPass, hlen, hcnt]]
        rw [ht]
        simp
      · obtain ⟨t, ht, hs⟩ := diversityPass_append maxI maxP rest sel counts
        refine ⟨t, ?_, hs.cons item⟩
        rw [show diversityPass maxI maxP (item :: rest) sel counts =
            diversityPass maxI maxP rest sel counts by
            simp [diversityPass, hlen, hcnt]]
        exact ht

theorem diversityPass_le (maxI maxP : Nat) :
    ∀ (items sel : List ScoredFeedItem) (counts : List (Option String × Nat)),
      sel.length ≤ maxI →
      (diversityPass maxI maxP items sel counts).length ≤ maxI
  | [], sel, counts, h => by simpa [diversityPass] using h
  | item :: rest, sel, counts, h => by
    by_cases hlen : maxI ≤ sel.length
    · simpa [diversityPass, hlen] using h
    · by_cases hcnt : countOf counts item.matchedTopics.head? < maxP
      · rw [show diversityPass maxI maxP (item :: rest) sel counts =
            diversityPass maxI maxP rest (sel ++ [item])
              (mapSet counts item.matchedTopics.head?
                (countOf counts item.matchedTopics.head? + 1)) by
            simp [diversityPass, hlen, hcnt]]
        exact diversityPass_le maxI maxP rest (sel ++ [item]) _
          (by simp; omega)
      · rw [show diversityPass maxI maxP (item :: rest) sel counts =
            diversityPass maxI maxP rest sel counts by
            simp [diversityPass, hlen, hcnt]]
        exact diversityPass_le maxI maxP rest sel counts h

theorem fillPass_nodup (maxI : Nat) :
    ∀ (items sel : List ScoredFeedItem), sel.Nodup →
      (fillPass maxI items sel).Nodup
  | [], sel, h => by simpa [fillPass] using h
  | item :: rest, sel, h => by
    by_cases hlen : maxI ≤ sel.length
    · simpa [fillPass, hlen] using h
    · by_cases hmem : item ∈ sel
      · rw [show fillPass maxI (item :: rest) sel = fillPass maxI rest sel by
          simp [fillPass, hlen, hmem]]
        exact fillPass_nodup maxI rest sel h
      · rw [show fillPass maxI (item :: rest) sel =
            fillPass maxI rest (sel ++ [item]) by
            simp [fillPass, hlen, hmem]]
        exact fillPass_nodup maxI rest (sel ++ [item])
          (by simp [List.nodup_append, h, hmem])

theorem fillPass_mem (maxI : Nat) :
    ∀ (items sel : List ScoredFeedItem) (x : ScoredFeedItem),
      x ∈ fillPass maxI items sel → x ∈ sel ∨ x ∈ items
  | [], sel, x, h => Or.inl (by simpa [fillPass] using h)
  | item :: rest, sel, x, h => by
    by_cases hlen : maxI ≤ sel.length
    · exact Or.inl (by simpa [fillPass, hlen] using h)
    · by_cases hmem : item ∈ sel
      · rw [show fillPass maxI (item :: rest) sel = fillPass maxI rest sel by
          simp [fillPass, hlen, hmem]] at h
        rcases fillPass_mem maxI rest sel x h with h2 | h2
        · exact Or.inl h2
        · exact Or.inr (List.mem_cons_of_mem item h2)
      · rw [show fillPass maxI (item :: rest) sel =
            fillPass maxI rest (sel ++ [item]) by
            simp [fillPass, hlen, hmem]] at h
        rcases fillPass_mem maxI rest (sel ++ [item]) x h with h2 | h2
        · rcases List.mem_append.mp h2 with h3 | h3
          · exact Or.inl h3
          · exact Or.inr (by simpa using Or.inl (List.mem_singleton.mp h3))
        · exact Or.inr (List.mem_cons_of_mem item h2)

theorem length_filter_partition {α : Type} (p : α → Bool) :
    ∀ l : List α,
      (l.filter p).length + (l.filter (fun a => !(p a))).length = l.length
  | [] => by simp
  | a :: l => by
    have ih := length_filter_partition p l
    by_cases h : p a = true
    · rw [List.filter_cons, List.filter_cons, if_pos h, if_neg (by simp [h])]
      simp only [List.length_cons]
      omega
    · have h2 : p a = false := Bool.eq_false_iff.mpr h
      rw [List.filter_cons, List.filter_cons, if_neg (by simp [h2]),
        if_pos (by simp [h2])]
      simp only [List.length_cons]
      omega

theorem filter_mem_of_sublist {α : Type} [DecidableEq α] {s l : List α}
    (hsub : List.Sublist s l) (hnd : l.Nodup) :
    l.filter (fun x => x ∈ s) = s := by
  induction hsub with
  | slnil => simp
  | @cons s l a h ih =>
    have hnd2 := List.nodup_cons.mp hnd
    have ha : a ∉ s := fun hmem => hnd2.1 (h.subset hmem)
    rw [List.filter_cons, if_neg (by simpa using ha)]
    exact ih hnd2.2
  | @cons₂ s l a h ih =>
    have hnd2 := List.nodup_cons.mp hnd
    rw [List.filter_cons, if_pos (by simp)]
    have hcongr : l.filter (fun x => x ∈ a :: s) = l.filter (fun x => x ∈ s) := by
      apply List.filter_congr
      intro y hy
      have hya : y ≠ a := fun he => hnd2.1 (he ▸ hy)
      simp [List.mem_cons, hya]
    rw [hcongr, ih hnd2.2]

theorem fillPass_length (maxI : Nat) :
    ∀ (items sel : List ScoredFeedItem), items.Nodup → sel.length ≤ maxI →
      (fillPass maxI items sel).length =
        min maxI (sel.length + (items.filter (fun x => ¬ x ∈ sel)).length)
  | [], sel, _, hle => by
    simp [fillPass]
    exact hle
  | item :: rest, sel, hnd, hle => by
    have hnd2 := List.nodup_cons.mp hnd
    by_cases hlen : maxI ≤ sel.length
    · have heq : sel.length = maxI := le_antisymm hle hlen
      simp [fillPass, hlen, heq]
    · by_cases hmem : item ∈ sel
      · rw [show fillPass maxI (item :: rest) sel = fillPass maxI rest sel by
          simp [fillPass, hlen, hmem]]
        rw [fillPass_length maxI rest sel hnd2.2 hle]
        rw [List.filter_cons, if_neg (by simpa using hmem)]
      · rw [show fillPass maxI (item :: rest) sel =
            fillPass maxI rest (sel ++ [item]) by
            simp [fillPass, hlen, hmem]]
        rw [fillPass_length maxI rest (sel ++ [item]) hnd2.2
          (by simp; omega)]
        have hcongr : rest.filter (fun x => ¬ x ∈ sel ++ [item]) =
            rest.filter (fun x => ¬ x ∈ sel) := by
          apply List.filter_congr
          intro y hy
          have hya : y ≠ item := fun he => hnd2.1 (he ▸ hy)
          simp [List.mem_append, hya]
        rw [hcongr, List.filter_cons, if_pos (by simpa using hmem)]
        simp
        omega

/-- C10: on pairwise-distinct input, selectDiverseItems returns a
duplicate-free list drawn from the input whose length is exactly the
minimum of maxItems and the input length. -/
theorem selectDiverseItems_spec (scored : List ScoredFeedItem)
    (maxItems maxPerTopic : Nat) (hnd : scored.Nodup) :
    (selectDiverseItems scored maxItems maxPerTopic).Nodup ∧
    (∀ x ∈ selectDiverseItems scored maxItems maxPerTopic, x ∈ scored) ∧
    (selectDiverseItems scored maxItems maxPerTopic).length =
      min maxItems scored.length := by
  obtain ⟨s1, hs1eq, hs1sub⟩ := diversityPass_append maxItems maxPerTopic scored [] []
  have hs1 : diversityPass maxItems maxPerTopic scored [] [] = s1 := by
    simpa using hs1eq
  have hs1nd : s1.Nodup := hnd.sublist hs1sub
  have hs1le : s1.length ≤ maxItems := by
    have := diversityPass_le maxItems maxPerTopic scored [] [] (by simp)
    rwa [hs1] at this
  unfold selectDiverseItems
  rw [hs1]
  by_cases hf : s1.length < maxItems
  · rw [if_pos hf]
    refine ⟨fillPass_nodup maxItems scored s1 hs1nd, ?_, ?_⟩
    · intro x hx
      rcases fillPass_mem maxItems scored s1 x hx with h | h
      · exact hs1sub.subset h
      · exact h
    · rw [fillPass_length maxItems scored s1 hnd (le_of_lt hf)]
      have hfm : scored.filter (fun x => x ∈ s1) = s1 :=
        filter_mem_of_sublist hs1sub hnd
      have hpart := length_filter_partition (fun x : ScoredFeedItem => decide (x ∈ s1)) scored
      rw [hfm] at hpart
      have hsame : scored.filter (fun x => ¬ x ∈ s1) =
          scored.filter (fun x => !(decide (x ∈ s1))) := by
        apply List.filter_congr
        intro y _
        simp
      rw [hsame]
      omega
  · rw [if_neg hf]
    have hlen : s1.length = maxItems := le_antisymm hs1le (not_lt.mp hf)
    refine ⟨hs1nd, fun x hx => hs1sub.subset hx, ?_⟩
    have hsl : maxItems ≤ scored.length := hlen ▸ hs1sub.length_le
    rw [hlen, Nat.min_eq_left hsl]

/-- Witness for C10 on three concrete distinct items with maxItems 2. -/
theorem selectDiverseItems_spec_witness :
    (selectDiverseItems
        [mkScoredItem "A" 3 "t", mkScoredItem "B" 2 "t", mkScoredItem "C" 1 "u"]
        2 1).length =
      min 2 ([mkScoredItem "A" 3 "t", mkScoredItem "B" 2 "t",
        mkScoredItem "C" 1 "u"] : List ScoredFeedItem).length :=
  (selectDiverseItems_spec
    [mkScoredItem "A" 3 "t", mkScoredItem "B" 2 "t", mkScoredItem "C" 1 "u"]
    2 1 (by decide)).2.2

/-! ### C2: URL canonicalization is not idempotent in general -/

/-- Counterexample to C2 as stated: a host with a doubled `www.` label
loses one label per application, so the second application changes the
string again. -/
theorem canonicalizeUrl_not_idem :
    ¬ (canonicalizeUrl (canonicalizeUrl "http://www.www.example.com/a") =
        canonicalizeUrl "http://www.www.example.com/a") := by decide

theorem hostChar_toLowerCh {c : Char} (h : hostChar c = true) :
    toLowerCh c = c := by
  unfold toLowerCh
  rw [if_neg]
  rintro ⟨h1, h2⟩
  simp only [hostChar, isLowerAlpha, isDigitCh, Bool.or_eq_true,
    Bool.and_eq_true, decide_eq_true_eq] at h
  rcases h with ((⟨ha, hb⟩ | ⟨ha, hb⟩) | hc) | hc
  · omega
  · omega
  · subst hc; exact absurd h1 (by decide)
  · subst hc; exact absurd h1 (by decide)

theorem hostChar_not_sep {c : Char} (h : hostChar c = true) :
    ¬ (c = '/' ∨ c = '?') := by
  rintro (rfl | rfl) <;> exact absurd h (by decide)

theorem pathChar_ne_qm {c : Char} (h : pathChar c = true) : c ≠ '?' := by
  rintro rfl; exact absurd h (by decide)

theorem queryChar_ne_amp {c : Char} (h : queryChar c = true) : c ≠ '&' := by
  rintro rfl; exact absurd h (by decide)

theorem queryChar_ne_eq {c : Char} (h : queryChar c = true) : c ≠ '=' := by
  rintro rfl; exact absurd h (by decide)

theorem dropLead_append : ∀ (p t : List Char), dropLead p (p ++ t) = some t
  | [], _ => rfl
  | c :: p, t => by simp [dropLead, dropLead_append p t]

theorem dropLead_http_https (t : List Char) :
    dropLead ("http://".data) ("https://".data ++ t) = none := rfl

theorem takeWhile_append_all {p : Char → Bool} :
    ∀ (A B : List Char), (∀ a ∈ A, p a = true) →
      (∀ b bs, B = b :: bs → p b = false) →
      (A ++ B).takeWhile p = A
  | [], B, _, hB => by
    cases B with
    | nil => rfl
    | cons b bs => simp [List.takeWhile_cons, hB b bs rfl]
  | a :: A, B, hA, hB => by
    simp only [List.cons_append, List.takeWhile_cons, hA a (by simp),
      if_true]
    rw [takeWhile_append_all A B (fun x hx => hA x (by simp [hx])) hB]

theorem splitOnCh_ne_nil {sep : Char} : ∀ l : List Char, splitOnCh sep l ≠ []
  | [] => by simp [splitOnCh]
  | c :: cs => by
    obtain ⟨p, ps, h⟩ : ∃ p ps, splitOnCh sep cs = p :: ps := by
      cases h : splitOnCh sep cs with
      | nil => exact absurd h (splitOnCh_ne_nil cs)
      | cons p ps => exact ⟨p, ps, rfl⟩
    by_cases hc : c = sep <;> simp [splitOnCh, h, hc]

theorem splitOnCh_sep_free {sep : Char} :
    ∀ l : List Char, (∀ c ∈ l, c ≠ sep) → splitOnCh sep l = [l]
  | [], _ => rfl
  | c :: cs, h => by
    have ih := splitOnCh_sep_free cs fun x hx => h x (List.mem_cons_of_mem c hx)
    simp [splitOnCh, ih, h c (List.mem_cons_self c cs)]

theorem splitOnCh_append {sep : Char} :
    ∀ (A B : List Char), (∀ c ∈ A, c ≠ sep) →
      splitOnCh sep (A ++ sep :: B) = A :: splitOnCh sep B
  | [], B, _ => by
    obtain ⟨p, ps, h⟩ : ∃ p ps, splitOnCh sep B = p :: ps := by
      cases h : splitOnCh sep B with
      | nil => exact absurd h (splitOnCh_ne_nil B)
      | cons p ps => exact ⟨p, ps, rfl⟩
    simp [splitOnCh, h]
  | a :: A, B, hA => by
    have ih := splitOnCh_append A B fun x hx => hA x (List.mem_cons_of_mem a hx)
    have hne : a ≠ sep := hA a (List.mem_cons_self a A)
    simp [splitOnCh, ih, hne]

theorem parsePair_roundtrip (k v : List Char) (hk : k ≠ [])
    (hkq : k.all queryChar = true) (hvq : v.all queryChar = true) :
    parsePair (k ++ '=' :: v) = some (k, v) := by
  have hkfree : ∀ c ∈ k, c ≠ '=' := fun c hc =>
    queryChar_ne_eq ((List.all_eq_true.mp hkq) c hc)
  have hvfree : ∀ c ∈ v, c ≠ '=' := fun c hc =>
    queryChar_ne_eq ((List.all_eq_true.mp hvq) c hc)
  unfold parsePair
  rw [splitOnCh_append k v hkfree, splitOnCh_sep_free v hvfree]
  simp [hk, hkq, hvq]

theorem serializeQuery_cons_cons (kv1 kv2 : List Char × List Char)
    (rest : List (List Char × List Char)) :
    serializeQuery (kv1 :: kv2 :: rest) =
      (kv1.1 ++ '=' :: kv1.2) ++ '&' :: serializeQuery (kv2 :: rest) := by
  show kv1.1 ++ '=' :: kv1.2 ++ '&' :: serializeQuery (kv2 :: rest) = _
  simp

theorem part_amp_free {k v : List Char} (hkq : k.all queryChar = true)
    (hvq : v.all queryChar = true) :
    ∀ c ∈ k ++ '=' :: v, c ≠ '&' := by
  intro c hc
  rcases List.mem_append.mp hc with h | h
  · exact queryChar_ne_amp ((List.all_eq_true.mp hkq) c h)
  · rcases List.mem_cons.mp h with rfl | h
    · decide
    · exact queryChar_ne_amp ((List.all_eq_true.mp hvq) c h)

theorem parseQueryPairs_roundtrip :
    ∀ ps : List (List Char × List Char),
      (∀ kv ∈ ps, kv.1 ≠ [] ∧ kv.1.all queryChar = true ∧
        kv.2.all queryChar = true) →
      ps ≠ [] → parseQueryPairs (serializeQuery ps) = some ps
  | [], _, hne => absurd rfl hne
  | [kv], hwf, _ => by
    obtain ⟨h1, h2, h3⟩ := hwf kv (by simp)
    unfold parseQueryPairs serializeQuery
    rw [splitOnCh_sep_free _ (part_amp_free h2 h3)]
    simp [parsePairs, parsePair_roundtrip kv.1 kv.2 h1 h2 h3]
  | kv1 :: kv2 :: rest, hwf, _ => by
    obtain ⟨h1, h2, h3⟩ := hwf kv1 (by simp)
    have ih := parseQueryPairs_roundtrip (kv2 :: rest)
      (fun kv hkv => hwf kv (List.mem_cons_of_mem kv1 hkv)) (by simp)
    unfold parseQueryPairs at ih ⊢
    rw [serializeQuery_cons_cons, splitOnCh_append _ _ (part_amp_free h2 h3)]
    simp [parsePairs, parsePair_roundtrip kv1.1 kv1.2 h1 h2 h3, ih]

theorem parsePairs_wf :
    ∀ (parts : List (List Char)) (ps : List (List Char × List Char)),
      parsePairs parts = some ps →
      ∀ kv ∈ ps, kv.1 ≠ [] ∧ kv.1.all queryChar = true ∧
        kv.2.all queryChar = true := by
  intro parts
  induction parts with
  | nil =>
    intro ps h kv hkv
    simp [parsePairs] at h
    subst h
    exact absurd hkv (List.not_mem_nil kv)
  | cons part rest ih =>
    intro ps h kv hkv
    unfold parsePairs at h
    cases hp : parsePair part with
    | none => rw [hp] at h; exact absurd h (by simp)
    | some kv0 =>
      cases hr : parsePairs rest with
      | none => rw [hp, hr] at h; exact absurd h (by simp)
      | some kvs =>
        rw [hp, hr] at h
        simp only [Option.some.injEq] at h
        subst h
        rcases List.mem_cons.mp hkv with rfl | hmem
        · unfold parsePair at hp
          cases hsp : splitOnCh '=' part with
          | nil => rw [hsp] at hp; exact absurd hp (by simp)
          | cons p1 tl =>
            cases tl with
            | nil => rw [hsp] at hp; exact absurd hp (by simp)
            | cons p2 tl2 =>
              cases tl2 with
              | nil =>
                rw [hsp] at hp
                have hp2 : (if (decide (p1 ≠ []) && p1.all queryChar &&
                    p2.all queryChar) = true then some (p1, p2) else none) =
                    some kv := hp
                by_cases hcond : (decide (p1 ≠ []) && p1.all queryChar &&
                    p2.all queryChar) = true
                · rw [if_pos hcond] at hp2
                  simp only [Option.some.injEq] at hp2
                  subst hp2
                  simp only [Bool.and_eq_true, decide_eq_true_eq] at hcond
                  exact ⟨hcond.1.1, hcond.1.2, hcond.2⟩
                · rw [if_neg hcond] at hp2
                  exact absurd hp2 (by simp)
              | cons p3 tl3 => rw [hsp] at hp; exact absurd hp (by simp)
        · exact ih kvs hr kv hmem

theorem parsePathQuery_wf (scheme host after : List Char)
    (hs : scheme = "http".data ∨ scheme = "https".data)
    (hh1 : host ≠ []) (hh2 : host.all hostChar = true) (r : UrlRec)
    (h : parsePathQuery scheme host after = some r) : wfUrl r := by
  cases after with
  | nil =>
    simp only [parsePathQuery, Option.some.injEq] at h
    subst h
    exact ⟨hs, hh1, hh2, rfl,
      (by decide : (['/'] : List Char).all pathChar = true),
      fun kv hkv => absurd hkv (List.not_mem_nil kv)⟩
  | cons c tl =>
    simp only [parsePathQuery] at h
    by_cases hc : c = '?'
    · rw [if_pos hc] at h
      obtain ⟨ps, hps, heq⟩ := Option.map_eq_some'.mp h
      subst heq
      refine ⟨hs, hh1, hh2, rfl,
        (by decide : (['/'] : List Char).all pathChar = true), ?_⟩
      unfold parseQueryPairs at hps
      exact parsePairs_wf _ ps hps
    · rw [if_neg hc] at h
      by_cases hc2 : c = '/'
      · rw [if_pos hc2] at h
        subst hc2
        by_cases hpa : (('/' :: tl).takeWhile fun x => x ≠ '?').all pathChar = true
        · rw [if_neg (not_not_intro hpa)] at h
          have hhead : (('/' :: tl).takeWhile fun x => x ≠ '?').head? = some '/' := by
            rw [List.takeWhile_cons, if_pos (by decide)]
            rfl
          cases hap : ('/' :: tl).drop
              (('/' :: tl).takeWhile fun x => x ≠ '?').length with
          | nil =>
            rw [hap] at h
            simp only [Option.some.injEq] at h
            subst h
            exact ⟨hs, hh1, hh2, hhead, hpa,
              fun kv hkv => absurd hkv (List.not_mem_nil kv)⟩
          | cons c2 q =>
            rw [hap] at h
            have h2 : (if c2 = '?' then
                (parseQueryPairs q).map (fun ps =>
                  (⟨scheme, host,
                    List.takeWhile (fun x => decide (x ≠ '?')) ('/' :: tl),
                    ps⟩ : UrlRec))
              else none) = some r := h
            by_cases hc3 : c2 = '?'
            · rw [if_pos hc3] at h2
              obtain ⟨ps, hps, heq⟩ := Option.map_eq_some'.mp h2
              subst heq
              refine ⟨hs, hh1, hh2, hhead, hpa, ?_⟩
              unfold parseQueryPairs at hps
              exact parsePairs_wf _ ps hps
            · rw [if_neg hc3] at h2
              exact absurd h2 (by simp)
        · rw [if_pos hpa] at h
          exact absurd h (by simp)
      · rw [if_neg hc2] at h
        exact absurd h (by simp)

theorem parseRest_wf (scheme rest : List Char)
    (hs : scheme = "http".data ∨ scheme = "https".data) (r : UrlRec)
    (h : parseRest scheme rest = some r) : wfUrl r := by
  unfold parseRest at h
  by_cases hg : (rest.takeWhile fun c => ¬(c = '/' ∨ c = '?')).map toLowerCh = [] ∨
      ¬ ((rest.takeWhile fun c => ¬(c = '/' ∨ c = '?')).map toLowerCh).all
        hostChar = true
  · rw [if_pos hg] at h
    exact absurd h (by simp)
  · rw [if_neg hg] at h
    have hg1 : (rest.takeWhile fun c => ¬(c = '/' ∨ c = '?')).map toLowerCh ≠ [] :=
      fun he => hg (Or.inl he)
    have hg2 : ((rest.takeWhile fun c => ¬(c = '/' ∨ c = '?')).map
        toLowerCh).all hostChar = true := by
      by_contra hb
      exact hg (Or.inr hb)
    exact parsePathQuery_wf scheme _ _ hs hg1 hg2 r h

theorem parseUrl_wf (s : List Char) (r : UrlRec) (h : parseUrl s = some r) :
    wfUrl r := by
  unfold parseUrl at h
  cases h1 : dropLead ("http://".data) s with
  | some rest =>
    rw [h1] at h
    exact parseRest_wf _ _ (Or.inl rfl) r h
  | none =>
    rw [h1] at h
    cases h2 : dropLead ("https://".data) s with
    | some rest =>
      rw [h2] at h
      exact parseRest_wf _ _ (Or.inr rfl) r h
    | none =>
      rw [h2] at h
      exact absurd h (by simp)

theorem map_toLowerCh_of_hostChar {h : List Char} (hall : h.all hostChar = true) :
    h.map toLowerCh = h := by
  have : h.map toLowerCh = h.map id :=
    List.map_congr_left fun a ha =>
      hostChar_toLowerCh (List.all_eq_true.mp hall a ha)
  rw [this, List.map_id]

theorem parse_serialize (r : UrlRec) (hwf : wfUrl r)
    (hs : r.scheme = "https".data) :
    parseUrl (serializeUrl r) = some r := by
  obtain ⟨-, hne, hall, hhead, hpall, hq⟩ := hwf
  obtain ⟨tl, hptl⟩ : ∃ tl, r.path = '/' :: tl := by
    cases hp : r.path with
    | nil => rw [hp] at hhead; exact absurd hhead (by simp)
    | cons c t =>
      rw [hp] at hhead
      simp only [List.head?_cons, Option.some.injEq] at hhead
      exact ⟨t, by rw [hhead]⟩
  have key : ∀ X : List Char,
      (∀ b bs, X = b :: bs → b = '?') →
      (∀ res : Option (List (List Char × List Char)),
        res = (if X.isEmpty then some [] else
          match X with
          | [] => some []
          | _ :: q => parseQueryPairs q) →
        True) →
      parseUrl ("https://".data ++ (r.host ++ (r.path ++ X))) =
        parsePathQuery ("https".data) r.host (r.path ++ X) := by
    intro X hX _
    have e1 : dropLead ("http://".data)
        ("https://".data ++ (r.host ++ (r.path ++ X))) = none :=
      dropLead_http_https _
    have e2 : dropLead ("https://".data)
        ("https://".data ++ (r.host ++ (r.path ++ X))) =
        some (r.host ++ (r.path ++ X)) := dropLead_append _ _
    have hB : ∀ b bs, r.path ++ X = b :: bs → b = '/' := by
      intro b bs hb
      rw [hptl] at hb
      exact (List.cons.injEq _ _ _ _ ▸ hb).1.symm ▸ rfl
    have htw : ((r.host ++ (r.path ++ X)).takeWhile
        fun c => ¬(c = '/' ∨ c = '?')) = r.host := by
      apply takeWhile_append_all
      · intro a ha
        simp only [decide_eq_true_eq]
        exact hostChar_not_sep (List.all_eq_true.mp hall a ha)
      · intro b bs hb
        have hb2 : b = '/' := hB b bs hb
        subst hb2
        decide
    simp only [parseUrl, e1, e2, parseRest, htw,
      map_toLowerCh_of_hostChar hall, List.drop_left]
    rw [if_neg]
    rintro (he | hb)
    · exact hne he
    · exact hb hall
  have hrec : ∀ X : List Char,
      (∀ b bs, X = b :: bs → b = '?') →
      parsePathQuery ("https".data) r.host (r.path ++ X) =
        (match X with
          | [] => some (⟨"https".data, r.host, r.path, []⟩ : UrlRec)
          | _ :: q => (parseQueryPairs q).map fun ps =>
              (⟨"https".data, r.host, r.path, ps⟩ : UrlRec)) := by
    intro X hX
    rw [hptl, List.cons_append]
    simp only [parsePathQuery]
    rw [if_neg (by decide)]
    simp only [if_true]
    have htw2 : (('/' :: (tl ++ X)).takeWhile fun x => x ≠ '?') = r.path := by
      rw [show ('/' :: (tl ++ X)) = r.path ++ X by rw [hptl, List.cons_append]]
      apply takeWhile_append_all
      · intro a ha
        simp only [ne_eq, decide_not, Bool.not_eq_eq_eq_not, Bool.not_true,
          decide_eq_false_iff_not]
        exact pathChar_ne_qm (List.all_eq_true.mp hpall a ha)
      · intro b bs hb
        have hb2 : b = '?' := hX b bs hb
        subst hb2
        decide
    rw [htw2, if_neg (not_not_intro hpall),
      show ('/' :: (tl ++ X)).drop r.path.length = X by
        rw [show ('/' :: (tl ++ X)) = r.path ++ X by rw [hptl, List.cons_append]]
        exact List.drop_left r.path X]
    cases X with
    | nil => rw [hptl]
    | cons x q =>
      have hx : x = '?' := hX x q rfl
      subst hx
      rw [hptl]
      simp
  cases hqq : r.query with
  | nil =>
    have hXempty : serializeUrl r =
        "https://".data ++ (r.host ++ (r.path ++ [])) := by
      unfold serializeUrl
      rw [hs, hqq]
      simp
    rw [hXempty, key [] (by intro b bs hb; cases hb) (fun _ _ => trivial),
      hrec [] (by intro b bs hb; cases hb)]
    have : r = ⟨"https".data, r.host, r.path, []⟩ := by
      cases r
      simp_all
    exact congrArg some this.symm
  | cons kv kvs =>
    have hXq : serializeUrl r = "https://".data ++
        (r.host ++ (r.path ++ ('?' :: serializeQuery (kv :: kvs)))) := by
      unfold serializeUrl
      rw [hs, hqq]
      simp
    have hq2 : ∀ p ∈ kv :: kvs, p.1 ≠ [] ∧ p.1.all queryChar = true ∧
        p.2.all queryChar = true := by
      intro p hp
      exact hq p (hqq ▸ hp)
    rw [hXq,
      key ('?' :: serializeQuery (kv :: kvs))
        (by intro b bs hb; exact (List.cons.injEq _ _ _ _ ▸ hb).1.symm ▸ rfl)
        (fun _ _ => trivial),
      hrec ('?' :: serializeQuery (kv :: kvs))
        (by intro b bs hb; exact (List.cons.injEq _ _ _ _ ▸ hb).1.symm ▸ rfl)]
    rw [show (match ('?' :: serializeQuery (kv :: kvs)) with
        | [] => some (⟨"https".data, r.host, r.path, []⟩ : UrlRec)
        | _ :: q => (parseQueryPairs q).map fun ps =>
            (⟨"https".data, r.host, r.path, ps⟩ : UrlRec)) =
        (parseQueryPairs (serializeQuery (kv :: kvs))).map fun ps =>
          (⟨"https".data, r.host, r.path, ps⟩ : UrlRec) from rfl]
    rw [parseQueryPairs_roundtrip (kv :: kvs) hq2 (by simp)]
    have : r = ⟨"https".data, r.host, r.path, kv :: kvs⟩ := by
      cases r
      simp_all
    simp only [Option.map_some']
    exact congrArg some this.symm

theorem stripWww_ne {host : List Char} (h : host ≠ []) : stripWww host ≠ [] := by
  unfold stripWww
  by_cases h1 : leadsWith ("www.".data) host = true
  · rw [if_pos h1]
    by_cases h2 : host.drop 4 = []
    · rw [if_pos h2]; exact h
    · rw [if_neg h2]; exact h2
  · rw [if_neg h1]; exact h

theorem stripWww_all {host : List Char} (hall : host.all hostChar = true) :
    (stripWww host).all hostChar = true := by
  unfold stripWww
  by_cases h1 : leadsWith ("www.".data) host = true
  · rw [if_pos h1]
    by_cases h2 : host.drop 4 = []
    · rw [if_pos h2]; exact hall
    · rw [if_neg h2]
      rw [List.all_eq_true] at hall ⊢
      exact fun c hc => hall c (List.drop_subset 4 host hc)
  · rw [if_neg h1]; exact hall

theorem stripSlash_head {p : List Char} (hh : p.head? = some '/') :
    (stripSlash p).head? = some '/' := by
  unfold stripSlash
  by_cases hc : p.getLast? = some '/' ∧ 1 < p.length
  · rw [if_pos hc]
    cases p with
    | nil => exact absurd hh (by simp)
    | cons c tl =>
      cases tl with
      | nil => exact absurd hc.2 (by simp)
      | cons c2 tl2 =>
        simp only [List.head?_cons, Option.some.injEq] at hh
        subst hh
        simp [List.dropLast]
  · rw [if_neg hc]; exact hh

theorem stripSlash_all {p : List Char} (hall : p.all pathChar = true) :
    (stripSlash p).all pathChar = true := by
  unfold stripSlash
  by_cases hc : p.getLast? = some '/' ∧ 1 < p.length
  · rw [if_pos hc]
    rw [List.all_eq_true] at hall ⊢
    exact fun c hc2 => hall c ((List.dropLast_prefix p).subset hc2)
  · rw [if_neg hc]; exact hall

theorem canonRec_wf {r : UrlRec} (h : wfUrl r) : wfUrl (canonRec r) := by
  obtain ⟨hsch, hne, hall, hhead, hpall, hq⟩ := h
  have hsall : (stripWww r.host).all hostChar = true := stripWww_all hall
  refine ⟨Or.inr rfl, ?_, ?_, ?_, ?_, ?_⟩
  · show (stripWww r.host).map toLowerCh ≠ []
    rw [map_toLowerCh_of_hostChar hsall]
    exact stripWww_ne hne
  · show ((stripWww r.host).map toLowerCh).all hostChar = true
    rw [map_toLowerCh_of_hostChar hsall]
    exact hsall
  · exact stripSlash_head hhead
  · exact stripSlash_all hpall
  · intro kv hkv
    exact hq kv (List.mem_of_mem_filter hkv)

theorem canonRec_idem {r : UrlRec} (hwf : wfUrl r)
    (hW : stripWww (stripWww r.host) = stripWww r.host)
    (hS : stripSlash (stripSlash r.path) = stripSlash r.path) :
    canonRec (canonRec r) = canonRec r := by
  obtain ⟨-, -, hall, -, -, -⟩ := hwf
  have hmap : (stripWww r.host).map toLowerCh = stripWww r.host :=
    map_toLowerCh_of_hostChar (stripWww_all hall)
  simp only [canonRec, hmap, hW, hS, List.filter_filter, Bool.and_self]

/-- C2 as amended: canonicalizeUrl is idempotent on every input whose
single `www.`-label strip and single trailing-slash strip are already
stable (the counterexample's doubled `www.` label and doubled trailing
slash are the only sources of non-idempotence); unparseable inputs are
returned unchanged and are trivially idempotent. -/
theorem canonicalizeUrl_idem (u : String) (h : canonStable u = true) :
    canonicalizeUrl (canonicalizeUrl u) = canonicalizeUrl u := by
  unfold canonStable at h
  cases hp : parseUrl u.data with
  | none =>
    have hcu : canonicalizeUrl u = u := by unfold canonicalizeUrl; rw [hp]
    rw [hcu]
    exact hcu
  | some r =>
    rw [hp] at h
    simp only [Bool.and_eq_true, decide_eq_true_eq] at h
    have hwf := parseUrl_wf u.data r hp
    have hcu : canonicalizeUrl u = ⟨serializeUrl (canonRec r)⟩ := by
      unfold canonicalizeUrl; rw [hp]
    have hps : parseUrl (serializeUrl (canonRec r)) = some (canonRec r) :=
      parse_serialize (canonRec r) (canonRec_wf hwf) rfl
    rw [hcu]
    unfold canonicalizeUrl
    rw [show ((⟨serializeUrl (canonRec r)⟩ : String)).data =
      serializeUrl (canonRec r) from rfl, hps]
    show (⟨serializeUrl (canonRec (canonRec r))⟩ : String) =
      ⟨serializeUrl (canonRec r)⟩
    rw [canonRec_idem hwf h.1 h.2]

/-- Witness for the amended C2 at a concrete stable input. -/
theorem canonicalizeUrl_idem_witness :
    canonStable "http://www.example.com/a/" = true ∧
    canonicalizeUrl (canonicalizeUrl "http://www.example.com/a/") =
      canonicalizeUrl "http://www.example.com/a/" :=
  ⟨by decide, canonicalizeUrl_idem "http://www.example.com/a/" (by decide)⟩

end KindleDigest
